import Mathlib

noncomputable section

/-!
Verification of the fact.rs core against its specification.

This file shallowly embeds, over `ℝ`, the Lie-group variable code of
`src/variables/so3.rs`, `src/variables/se3.rs`, `src/variables/vector.rs`,
`src/variables/traits.rs`, the noise models of `src/noise/gaussian.rs`, and
the dual-number seeding of `src/variables/traits.rs` / `so3.rs`.  Machine
`f64` scalars are modelled as real numbers; where a claim is specifically
about IEEE-754 special values a dedicated special-value scalar type is used.
-/

/-- 3-dimensional real vector, matching nalgebra `Vector3<f64>`. -/
structure V3 where
  x : ℝ
  y : ℝ
  z : ℝ

theorem V3.ext_iff' (a b : V3) : a = b ↔ a.x = b.x ∧ a.y = b.y ∧ a.z = b.z := by
  constructor
  · intro h; subst h; exact ⟨rfl, rfl, rfl⟩
  · rintro ⟨h1, h2, h3⟩; cases a; cases b; simp_all

def V3.add (a b : V3) : V3 := ⟨a.x + b.x, a.y + b.y, a.z + b.z⟩

instance : Add V3 := ⟨V3.add⟩

def V3.sub (a b : V3) : V3 := ⟨a.x - b.x, a.y - b.y, a.z - b.z⟩

instance : Sub V3 := ⟨V3.sub⟩

def V3.neg (a : V3) : V3 := ⟨-a.x, -a.y, -a.z⟩

instance : Neg V3 := ⟨V3.neg⟩

def V3.smul (c : ℝ) (a : V3) : V3 := ⟨c * a.x, c * a.y, c * a.z⟩

instance : SMul ℝ V3 := ⟨V3.smul⟩

/-- nalgebra `norm_squared`. -/
def V3.normSq (a : V3) : ℝ := a.x * a.x + a.y * a.y + a.z * a.z

/-- nalgebra `norm`. -/
def V3.norm (a : V3) : ℝ := Real.sqrt a.normSq

def V3.dot (a b : V3) : ℝ := a.x * b.x + a.y * b.y + a.z * b.z

/-- Cross product (the action of `SO3::hat`). -/
def V3.cross (a b : V3) : V3 :=
  ⟨a.y * b.z - a.z * b.y, a.z * b.x - a.x * b.z, a.x * b.y - a.y * b.x⟩

/-- Real model of Rust `y.atan2(x)` (`f64::atan2`, IEEE atan2 on real inputs;
the `y = 0, x = 0` case returns `0` as IEEE does for positive zeros). -/
def atan2 (y x : ℝ) : ℝ :=
  if 0 < x then Real.arctan (y / x)
  else if x < 0 then
    (if 0 ≤ y then Real.arctan (y / x) + Real.pi else Real.arctan (y / x) - Real.pi)
  else
    (if 0 < y then Real.pi / 2 else if y < 0 then -(Real.pi / 2) else 0)

/-- SO(3) element stored as quaternion components `xyzw`
(`SO3 { xyzw: Vector4<T> }` in `so3.rs`). -/
structure SO3 where
  x : ℝ
  y : ℝ
  z : ℝ
  w : ℝ

theorem SO3.ext_iff_q (a b : SO3) :
    a = b ↔ a.x = b.x ∧ a.y = b.y ∧ a.z = b.z ∧ a.w = b.w := by
  constructor
  · intro h; subst h; exact ⟨rfl, rfl, rfl, rfl⟩
  · rintro ⟨h1, h2, h3, h4⟩; cases a; cases b; simp_all

/-- `SO3::identity`: `Vector4::w()`. -/
def SO3.identity : SO3 := ⟨0, 0, 0, 1⟩

/-- `SO3::inverse`: conjugate quaternion. -/
def SO3.inverse (q : SO3) : SO3 := ⟨-q.x, -q.y, -q.z, q.w⟩

/-- `SO3::compose`: Hamilton product, term by term as in the source. -/
def SO3.compose (a b : SO3) : SO3 :=
  ⟨a.w * b.x + a.x * b.w + a.y * b.z - a.z * b.y,
   a.w * b.y - a.x * b.z + a.y * b.w + a.z * b.x,
   a.w * b.z + a.x * b.y - a.y * b.x + a.z * b.w,
   a.w * b.w - a.x * b.x - a.y * b.y - a.z * b.z⟩

/-- Squared norm of the storage quaternion. -/
def SO3.normSq (q : SO3) : ℝ := q.x * q.x + q.y * q.y + q.z * q.z + q.w * q.w

/-- Norm of the storage quaternion. -/
def SO3.qnorm (q : SO3) : ℝ := Real.sqrt q.normSq

/-- `SO3::exp` from `so3.rs`: Taylor branch for `theta2 < 1e-6`, otherwise
`w = cos(theta/2)` and `xyz = (xi/theta) * sqrt(1 - w*w)`. -/
def SO3.exp (xi : V3) : SO3 :=
  let theta2 := xi.normSq
  if theta2 < 1e-6 then
    ⟨xi.x * (1/2), xi.y * (1/2), xi.z * (1/2), 1 - theta2 / 8⟩
  else
    let theta := Real.sqrt theta2
    let w := Real.cos (theta * (1/2))
    let sinThetaHalf := Real.sqrt (1 - w * w)
    ⟨(xi.x / theta) * sinThetaHalf, (xi.y / theta) * sinThetaHalf,
     (xi.z / theta) * sinThetaHalf, w⟩

/-- `SO3::log` from `so3.rs`.  `is_sign_positive` on the real model is `0 ≤ w`. -/
def SO3.log (q : SO3) : V3 :=
  let v : V3 := ⟨q.x, q.y, q.z⟩
  let normV2 := v.normSq
  let scale :=
    if normV2 < 1e-6 then 2 / q.w - (2/3) * normV2 / (q.w * q.w * q.w)
    else
      let sign : ℝ := if 0 ≤ q.w then 1 else -1
      let normV := Real.sqrt normV2
      sign * atan2 normV (sign * q.w) * 2 / normV
  scale • v

/-- `Variable::oplus_right`: `self.compose(&Self::exp(xi))`. -/
def SO3.oplusRight (q : SO3) (xi : V3) : SO3 := q.compose (SO3.exp xi)

/-- `Variable::oplus_left`: `Self::exp(xi).compose(self)`. -/
def SO3.oplusLeft (q : SO3) (xi : V3) : SO3 := (SO3.exp xi).compose q

/-- `Variable::ominus_right`: `y.inverse().compose(self).log()`. -/
def SO3.ominusRight (q y : SO3) : V3 := (y.inverse.compose q).log

/-- `Variable::ominus_left`: `self.compose(&y.inverse()).log()`. -/
def SO3.ominusLeft (q y : SO3) : V3 := (q.compose y.inverse).log

@[simp] theorem V3.smul_x (c : ℝ) (v : V3) : (c • v).x = c * v.x := rfl

@[simp] theorem V3.smul_y (c : ℝ) (v : V3) : (c • v).y = c * v.y := rfl

@[simp] theorem V3.smul_z (c : ℝ) (v : V3) : (c • v).z = c * v.z := rfl

@[simp] theorem V3.add_x (a b : V3) : (a + b).x = a.x + b.x := rfl

@[simp] theorem V3.add_y (a b : V3) : (a + b).y = a.y + b.y := rfl

@[simp] theorem V3.add_z (a b : V3) : (a + b).z = a.z + b.z := rfl

@[simp] theorem V3.sub_x (a b : V3) : (a - b).x = a.x - b.x := rfl

@[simp] theorem V3.sub_y (a b : V3) : (a - b).y = a.y - b.y := rfl

@[simp] theorem V3.sub_z (a b : V3) : (a - b).z = a.z - b.z := rfl

/-- Branch lemma: `SO3::exp` in the Taylor branch. -/
theorem SO3.exp_taylor (xi : V3) (h : xi.normSq < 1e-6) :
    SO3.exp xi = ⟨xi.x * (1/2), xi.y * (1/2), xi.z * (1/2), 1 - xi.normSq / 8⟩ := by
  simp only [SO3.exp]
  rw [if_pos h]

/-- Branch lemma: `SO3::exp` in the large-angle branch. -/
theorem SO3.exp_large (xi : V3) (h : ¬ xi.normSq < 1e-6) :
    SO3.exp xi =
      ⟨(xi.x / Real.sqrt xi.normSq) *
         Real.sqrt (1 - Real.cos (Real.sqrt xi.normSq * (1/2)) *
           Real.cos (Real.sqrt xi.normSq * (1/2))),
       (xi.y / Real.sqrt xi.normSq) *
         Real.sqrt (1 - Real.cos (Real.sqrt xi.normSq * (1/2)) *
           Real.cos (Real.sqrt xi.normSq * (1/2))),
       (xi.z / Real.sqrt xi.normSq) *
         Real.sqrt (1 - Real.cos (Real.sqrt xi.normSq * (1/2)) *
           Real.cos (Real.sqrt xi.normSq * (1/2))),
       Real.cos (Real.sqrt xi.normSq * (1/2))⟩ := by
  simp only [SO3.exp]
  rw [if_neg h]

/-- Branch lemma: `SO3::log` in the Taylor branch. -/
theorem SO3.log_taylor (q : SO3) (h : (V3.normSq ⟨q.x, q.y, q.z⟩) < 1e-6) :
    SO3.log q =
      (2 / q.w - (2/3) * V3.normSq ⟨q.x, q.y, q.z⟩ / (q.w * q.w * q.w)) •
        (⟨q.x, q.y, q.z⟩ : V3) := by
  simp only [SO3.log]
  rw [if_pos h]

/-- Branch lemma: `SO3::log` in the large branch. -/
theorem SO3.log_large (q : SO3) (h : ¬ (V3.normSq ⟨q.x, q.y, q.z⟩) < 1e-6) :
    SO3.log q =
      ((if 0 ≤ q.w then (1:ℝ) else -1) *
        atan2 (Real.sqrt (V3.normSq ⟨q.x, q.y, q.z⟩))
          ((if 0 ≤ q.w then (1:ℝ) else -1) * q.w) * 2 /
        Real.sqrt (V3.normSq ⟨q.x, q.y, q.z⟩)) • (⟨q.x, q.y, q.z⟩ : V3) := by
  simp only [SO3.log]
  rw [if_neg h]

/-- The `log` formula exactly as claim C1 words it (spec-side definition, kept
for comparison with the source-side `SO3.log`): in the large branch,
`xi = v * s * 2 * atan2(s*n, s*w) / n`. -/
def specLogC1 (q : SO3) : V3 :=
  let v : V3 := ⟨q.x, q.y, q.z⟩
  let n2 := v.normSq
  let scale :=
    if n2 < 1e-6 then 2 / q.w - (2/3) * n2 / (q.w * q.w * q.w)
    else
      let s : ℝ := if 0 ≤ q.w then 1 else -1
      let n := Real.sqrt n2
      s * 2 * atan2 (s * n) (s * q.w) / n
  scale • v

/-- The `exp` formula exactly as claim C3 words it (spec-side definition):
in the large branch `xyz = xi * sin(theta/2) / theta`, with `sin` itself
(negative for `theta > 2*pi`). -/
def specExpC3 (xi : V3) : SO3 :=
  let theta2 := xi.normSq
  if theta2 < 1e-6 then
    ⟨xi.x * (1/2), xi.y * (1/2), xi.z * (1/2), 1 - theta2 / 8⟩
  else
    let theta := Real.sqrt theta2
    ⟨xi.x * Real.sin (theta * (1/2)) / theta, xi.y * Real.sin (theta * (1/2)) / theta,
     xi.z * Real.sin (theta * (1/2)) / theta, Real.cos (theta * (1/2))⟩

theorem sqrt_four : Real.sqrt 4 = 2 := by
  rw [show (4:ℝ) = 2^2 by norm_num, Real.sqrt_sq (by norm_num : (0:ℝ) ≤ 2)]

theorem sqrt_three_quarters : Real.sqrt (3/4) = Real.sqrt 3 / 2 := by
  rw [show (3:ℝ)/4 = (Real.sqrt 3 / 2)^2 by
        rw [div_pow, Real.sq_sqrt (by norm_num : (0:ℝ) ≤ 3)]; norm_num]
  exact Real.sqrt_sq (by positivity)

theorem arctan_sqrt_three : Real.arctan (Real.sqrt 3) = Real.pi / 3 := by
  rw [← Real.tan_pi_div_three]
  exact Real.arctan_tan (by linarith [Real.pi_pos]) (by linarith [Real.pi_pos])

/-- C1 counterexample: at the unit quaternion `q = (√3/2, 0, 0, -1/2)`
(negative scalar part), the source `SO3::log` returns `(-2π/3, 0, 0)` while
the formula of claim C1 (`v * s * 2 * atan2(s*n, s*w) / n`) gives
`(+2π/3, 0, 0)`. -/
theorem c1_counterexample :
    SO3.log ⟨Real.sqrt 3 / 2, 0, 0, -(1/2)⟩ ≠
      specLogC1 ⟨Real.sqrt 3 / 2, 0, 0, -(1/2)⟩ := by
  have h3 : Real.sqrt 3 * Real.sqrt 3 = 3 := Real.mul_self_sqrt (by norm_num)
  have hs3 : (0:ℝ) < Real.sqrt 3 := by positivity
  have hn2 : (V3.normSq ⟨Real.sqrt 3 / 2, 0, 0⟩) = 3/4 := by
    simp only [V3.normSq]; nlinarith
  have hng : ¬ (V3.normSq ⟨Real.sqrt 3 / 2, 0, 0⟩) < 1e-6 := by rw [hn2]; norm_num
  have hdiv : Real.sqrt 3 / 2 / (1/2) = Real.sqrt 3 := by ring
  have hata : atan2 (Real.sqrt 3 / 2) (1/2) = Real.pi / 3 := by
    rw [atan2, if_pos (by norm_num : (0:ℝ) < 1/2), hdiv, arctan_sqrt_three]
  have hatb : atan2 (-(Real.sqrt 3 / 2)) (1/2) = -(Real.pi / 3) := by
    rw [atan2, if_pos (by norm_num : (0:ℝ) < 1/2)]
    rw [show -(Real.sqrt 3 / 2) / (1/2) = -Real.sqrt 3 by ring]
    rw [Real.arctan_neg, arctan_sqrt_three]
  have hwneg : ¬ (0:ℝ) ≤ -(1/2) := by norm_num
  have hlog : (SO3.log ⟨Real.sqrt 3 / 2, 0, 0, -(1/2)⟩).x = -(2 * Real.pi / 3) := by
    rw [SO3.log_large _ hng]
    simp only [V3.smul_x, hn2, sqrt_three_quarters, if_neg hwneg]
    rw [show (-1 : ℝ) * -(1/2) = 1/2 by norm_num, hata]
    field_simp
    ring
  have hspec : (specLogC1 ⟨Real.sqrt 3 / 2, 0, 0, -(1/2)⟩).x = 2 * Real.pi / 3 := by
    simp only [specLogC1]
    rw [if_neg hng]
    simp only [V3.smul_x, hn2, sqrt_three_quarters, if_neg hwneg]
    rw [show (-1 : ℝ) * -(1/2) = 1/2 by norm_num]
    rw [show (-1 : ℝ) * (Real.sqrt 3 / 2) = -(Real.sqrt 3 / 2) by ring, hatb]
    field_simp
    ring
  intro h
  rw [V3.ext_iff'] at h
  have := h.1
  rw [hlog, hspec] at this
  have hpi := Real.pi_pos
  linarith

/-- C1 amended: `log()` returns `v * (2/w - (2/3) n²/w³)` when `n² < 1e-6`,
and otherwise `v * s * 2 * atan2(n, s*w) / n` with `s = sign(w)` — the first
argument of `atan2` is `n` itself, not `s*n` as the claim stated. -/
theorem c1_amended (q : SO3) :
    ((V3.normSq ⟨q.x, q.y, q.z⟩) < 1e-6 →
      SO3.log q = (2 / q.w - (2/3) * V3.normSq ⟨q.x, q.y, q.z⟩ / (q.w * q.w * q.w)) •
        (⟨q.x, q.y, q.z⟩ : V3)) ∧
    (¬ (V3.normSq ⟨q.x, q.y, q.z⟩) < 1e-6 →
      SO3.log q = ((if 0 ≤ q.w then (1:ℝ) else -1) * 2 *
        atan2 (Real.sqrt (V3.normSq ⟨q.x, q.y, q.z⟩))
          ((if 0 ≤ q.w then (1:ℝ) else -1) * q.w) /
        Real.sqrt (V3.normSq ⟨q.x, q.y, q.z⟩)) • (⟨q.x, q.y, q.z⟩ : V3)) := by
  constructor
  · intro h; exact SO3.log_taylor q h
  · intro h
    rw [SO3.log_large q h]
    congr 1
    ring

/-- Witness for `c1_amended` at the concrete quaternion `(1,0,0,0)`:
the large branch applies and gives `log = (π, 0, 0)`. -/
theorem c1_amended_witness :
    (¬ (V3.normSq ⟨(1:ℝ), 0, 0⟩) < 1e-6) ∧
      SO3.log ⟨1, 0, 0, 0⟩ = ((if (0:ℝ) ≤ 0 then (1:ℝ) else -1) * 2 *
        atan2 (Real.sqrt (V3.normSq ⟨(1:ℝ), 0, 0⟩))
          ((if (0:ℝ) ≤ 0 then (1:ℝ) else -1) * 0) /
        Real.sqrt (V3.normSq ⟨(1:ℝ), 0, 0⟩)) • (⟨(1:ℝ), 0, 0⟩ : V3) :=
  ⟨by norm_num [V3.normSq], (c1_amended ⟨1, 0, 0, 0⟩).2 (by norm_num [V3.normSq])⟩

theorem sqrt_nine_pi_sq : Real.sqrt (9 * Real.pi ^ 2) = 3 * Real.pi := by
  rw [show 9 * Real.pi ^ 2 = (3 * Real.pi) ^ 2 by ring]
  exact Real.sqrt_sq (by positivity)

theorem cos_three_pi_div_two : Real.cos (3 * Real.pi / 2) = 0 := by
  rw [show 3 * Real.pi / 2 = Real.pi + Real.pi / 2 by ring]
  simp [Real.cos_add]

theorem sin_three_pi_div_two : Real.sin (3 * Real.pi / 2) = -1 := by
  rw [show 3 * Real.pi / 2 = Real.pi + Real.pi / 2 by ring]
  simp [Real.sin_add]

/-- C3 counterexample: at the tangent vector `(3π, 0, 0)` (`theta = 3π > 2π`),
the source `SO3::exp` sets the x component to `+1` (it uses
`sqrt(1 - w*w) = |sin(theta/2)|`), while the claim's formula `xi sin(theta/2)/theta`
gives `-1` (`sin(3π/2) = -1`). -/
theorem c3_counterexample :
    SO3.exp ⟨3 * Real.pi, 0, 0⟩ ≠ specExpC3 ⟨3 * Real.pi, 0, 0⟩ := by
  have hpi := Real.pi_gt_three
  have hn2 : (V3.normSq ⟨3 * Real.pi, 0, 0⟩) = 9 * Real.pi ^ 2 := by
    simp only [V3.normSq]; ring
  have hng : ¬ (V3.normSq ⟨3 * Real.pi, 0, 0⟩) < 1e-6 := by rw [hn2]; nlinarith
  have hth : Real.sqrt (V3.normSq ⟨3 * Real.pi, 0, 0⟩) = 3 * Real.pi := by
    rw [hn2, sqrt_nine_pi_sq]
  have harg : 3 * Real.pi * (1/2) = 3 * Real.pi / 2 := by ring
  have hx1 : (SO3.exp ⟨3 * Real.pi, 0, 0⟩).x = 1 := by
    rw [SO3.exp_large _ hng]
    simp only [hth, harg, cos_three_pi_div_two]
    rw [div_self (by positivity : (3:ℝ) * Real.pi ≠ 0)]
    norm_num
  have hx2 : (specExpC3 ⟨3 * Real.pi, 0, 0⟩).x = -1 := by
    simp only [specExpC3]
    rw [if_neg hng]
    simp only [hth, harg, sin_three_pi_div_two]
    field_simp
  intro h
  rw [SO3.ext_iff_q] at h
  rw [hx1, hx2] at h
  norm_num at h

/-- C3 amended: in the large branch `SO3::exp` returns
`xyz = xi * |sin(theta/2)| / theta` (the absolute value of the sine, computed
as `sqrt(1 - cos²(theta/2))`), not `xi * sin(theta/2) / theta`; the two only
agree while `theta ≤ 2π`.  The Taylor branch is as claimed. -/
theorem c3_amended (xi : V3) :
    (xi.normSq < 1e-6 →
      SO3.exp xi = ⟨xi.x * (1/2), xi.y * (1/2), xi.z * (1/2), 1 - xi.normSq / 8⟩) ∧
    (¬ xi.normSq < 1e-6 →
      SO3.exp xi =
        ⟨xi.x * |Real.sin (Real.sqrt xi.normSq * (1/2))| / Real.sqrt xi.normSq,
         xi.y * |Real.sin (Real.sqrt xi.normSq * (1/2))| / Real.sqrt xi.normSq,
         xi.z * |Real.sin (Real.sqrt xi.normSq * (1/2))| / Real.sqrt xi.normSq,
         Real.cos (Real.sqrt xi.normSq * (1/2))⟩) := by
  constructor
  · exact SO3.exp_taylor xi
  · intro h
    rw [SO3.exp_large xi h]
    have habs : Real.sqrt (1 - Real.cos (Real.sqrt xi.normSq * (1/2)) *
        Real.cos (Real.sqrt xi.normSq * (1/2))) =
        |Real.sin (Real.sqrt xi.normSq * (1/2))| := by
      rw [Real.abs_sin_eq_sqrt_one_sub_cos_sq]
      ring_nf
    rw [habs, SO3.ext_iff_q]
    refine ⟨by ring, by ring, by ring, rfl⟩

/-- Witness for `c3_amended` at `xi = (π, 0, 0)`: the large branch applies. -/
theorem c3_amended_witness :
    (¬ (V3.normSq ⟨Real.pi, 0, 0⟩) < 1e-6) ∧
      SO3.exp ⟨Real.pi, 0, 0⟩ =
        ⟨Real.pi * |Real.sin (Real.sqrt (V3.normSq ⟨Real.pi, 0, 0⟩) * (1/2))| /
           Real.sqrt (V3.normSq ⟨Real.pi, 0, 0⟩),
         0 * |Real.sin (Real.sqrt (V3.normSq ⟨Real.pi, 0, 0⟩) * (1/2))| /
           Real.sqrt (V3.normSq ⟨Real.pi, 0, 0⟩),
         0 * |Real.sin (Real.sqrt (V3.normSq ⟨Real.pi, 0, 0⟩) * (1/2))| /
           Real.sqrt (V3.normSq ⟨Real.pi, 0, 0⟩),
         Real.cos (Real.sqrt (V3.normSq ⟨Real.pi, 0, 0⟩) * (1/2))⟩ := by
  have hng : ¬ (V3.normSq ⟨Real.pi, 0, 0⟩) < 1e-6 := by
    have := Real.pi_gt_three
    simp only [V3.normSq]
    nlinarith
  exact ⟨hng, (c3_amended ⟨Real.pi, 0, 0⟩).2 hng⟩

theorem V3.normSq_nonneg (v : V3) : 0 ≤ v.normSq := by
  simp only [V3.normSq]; nlinarith [sq_nonneg v.x, sq_nonneg v.y, sq_nonneg v.z]

/-- Hamilton product is norm-multiplicative (a polynomial identity). -/
theorem SO3.normSq_compose (a b : SO3) :
    (a.compose b).normSq = a.normSq * b.normSq := by
  simp only [SO3.compose, SO3.normSq]
  ring

theorem SO3.normSq_inverse (q : SO3) : q.inverse.normSq = q.normSq := by
  simp only [SO3.inverse, SO3.normSq]; ring

/-- In the Taylor branch the storage quaternion of `exp` has squared norm
`1 + theta2²/64` (the "complete the square" comment in the source is slightly
optimistic, but the drift is far below the allowed 1e-10). -/
theorem SO3.normSq_exp_taylor (xi : V3) (h : xi.normSq < 1e-6) :
    (SO3.exp xi).normSq = 1 + xi.normSq ^ 2 / 64 := by
  rw [SO3.exp_taylor xi h]
  simp only [SO3.normSq, V3.normSq]
  ring

/-- In the large branch the storage quaternion of `exp` is exactly unit. -/
theorem SO3.normSq_exp_large (xi : V3) (h : ¬ xi.normSq < 1e-6) :
    (SO3.exp xi).normSq = 1 := by
  have hu : (0:ℝ) < xi.normSq := lt_of_lt_of_le (by norm_num) (not_lt.mp h)
  rw [SO3.exp_large xi h]
  set t := Real.sqrt xi.normSq with hts
  set c := Real.cos (t * (1/2)) with hcs
  have ht : t * t = xi.normSq := Real.mul_self_sqrt hu.le
  have htne : t ≠ 0 := by
    have : 0 < t := Real.sqrt_pos.mpr hu
    exact this.ne'
  have hc1 : c * c ≤ 1 := by
    have := Real.cos_sq_le_one (t * (1/2))
    nlinarith [this]
  have hs : Real.sqrt (1 - c * c) * Real.sqrt (1 - c * c) = 1 - c * c :=
    Real.mul_self_sqrt (by linarith)
  simp only [SO3.normSq]
  have hexp : xi.x / t * Real.sqrt (1 - c * c) * (xi.x / t * Real.sqrt (1 - c * c)) +
      xi.y / t * Real.sqrt (1 - c * c) * (xi.y / t * Real.sqrt (1 - c * c)) +
      xi.z / t * Real.sqrt (1 - c * c) * (xi.z / t * Real.sqrt (1 - c * c)) + c * c =
      (xi.x * xi.x + xi.y * xi.y + xi.z * xi.z) *
        (Real.sqrt (1 - c * c) * Real.sqrt (1 - c * c)) / (t * t) + c * c := by
    field_simp
    ring
  rw [hexp, hs, ht]
  have : (xi.x * xi.x + xi.y * xi.y + xi.z * xi.z) = xi.normSq := rfl
  rw [this]
  field_simp

/-- The norm of the `exp` quaternion never drifts from 1 by more than 1e-10. -/
theorem SO3.qnorm_exp (xi : V3) : |(SO3.exp xi).qnorm - 1| ≤ 1e-10 := by
  by_cases h : xi.normSq < 1e-6
  · have h0 : 0 ≤ xi.normSq := xi.normSq_nonneg
    have he : (SO3.exp xi).normSq = 1 + xi.normSq ^ 2 / 64 := SO3.normSq_exp_taylor xi h
    rw [SO3.qnorm, he]
    have h1 : 1 ≤ Real.sqrt (1 + xi.normSq ^ 2 / 64) := by
      rw [Real.le_sqrt (by norm_num) (by nlinarith)]
      nlinarith
    have h2 : Real.sqrt (1 + xi.normSq ^ 2 / 64) ≤ 1 + xi.normSq ^ 2 / 128 := by
      calc Real.sqrt (1 + xi.normSq ^ 2 / 64) ≤
          Real.sqrt ((1 + xi.normSq ^ 2 / 128) ^ 2) := Real.sqrt_le_sqrt (by nlinarith)
        _ = 1 + xi.normSq ^ 2 / 128 := Real.sqrt_sq (by nlinarith)
    have hb : xi.normSq ^ 2 ≤ 1e-12 := by nlinarith
    rw [abs_le]
    constructor <;> nlinarith
  · rw [SO3.qnorm, SO3.normSq_exp_large xi h, Real.sqrt_one]
    norm_num

/-- C5: norm drift of the SO(3) storage quaternion is at most 1e-10 after
`identity`, `inverse`, `compose`, `exp`, and both `oplus` conventions, for
unit-norm inputs (any tangent input for `exp`). -/
theorem c5_norm_drift :
    (|SO3.identity.qnorm - 1| ≤ 1e-10) ∧
    (∀ q : SO3, q.normSq = 1 → |q.inverse.qnorm - 1| ≤ 1e-10) ∧
    (∀ a b : SO3, a.normSq = 1 → b.normSq = 1 → |(a.compose b).qnorm - 1| ≤ 1e-10) ∧
    (∀ xi : V3, |(SO3.exp xi).qnorm - 1| ≤ 1e-10) ∧
    (∀ (q : SO3) (xi : V3), q.normSq = 1 → |(q.oplusRight xi).qnorm - 1| ≤ 1e-10) ∧
    (∀ (q : SO3) (xi : V3), q.normSq = 1 → |(q.oplusLeft xi).qnorm - 1| ≤ 1e-10) := by
  have hid : SO3.identity.normSq = 1 := by simp [SO3.identity, SO3.normSq]
  refine ⟨?_, ?_, ?_, SO3.qnorm_exp, ?_, ?_⟩
  · rw [SO3.qnorm, hid, Real.sqrt_one]; norm_num
  · intro q hq
    rw [SO3.qnorm, SO3.normSq_inverse, hq, Real.sqrt_one]; norm_num
  · intro a b ha hb
    rw [SO3.qnorm, SO3.normSq_compose, ha, hb, one_mul, Real.sqrt_one]; norm_num
  · intro q xi hq
    have := SO3.qnorm_exp xi
    rw [SO3.oplusRight, SO3.qnorm, SO3.normSq_compose, hq, one_mul]
    exact this
  · intro q xi hq
    have := SO3.qnorm_exp xi
    rw [SO3.oplusLeft, SO3.qnorm, SO3.normSq_compose, hq, mul_one]
    exact this

/-- Witness for `c5_norm_drift` at the unit quaternion `(0,0,0,1)` and
tangent `(1,0,0)`. -/
theorem c5_norm_drift_witness :
    ((⟨0, 0, 0, 1⟩ : SO3).normSq = 1) ∧
      |((⟨0, 0, 0, 1⟩ : SO3).oplusRight ⟨1, 0, 0⟩).qnorm - 1| ≤ 1e-10 :=
  ⟨by norm_num [SO3.normSq], c5_norm_drift.2.2.2.2.1 ⟨0, 0, 0, 1⟩ ⟨1, 0, 0⟩
    (by norm_num [SO3.normSq])⟩

/-- 3x3 real matrix with explicit entries, row major: rows `(a b c)`,
`(d e f)`, `(g h i)` (nalgebra `Matrix3<f64>`). -/
structure M3 where
  a : ℝ
  b : ℝ
  c : ℝ
  d : ℝ
  e : ℝ
  f : ℝ
  g : ℝ
  h : ℝ
  i : ℝ

theorem M3.ext_iff_m (m n : M3) :
    m = n ↔ m.a = n.a ∧ m.b = n.b ∧ m.c = n.c ∧ m.d = n.d ∧ m.e = n.e ∧
      m.f = n.f ∧ m.g = n.g ∧ m.h = n.h ∧ m.i = n.i := by
  constructor
  · intro hq; subst hq; exact ⟨rfl, rfl, rfl, rfl, rfl, rfl, rfl, rfl, rfl⟩
  · rintro ⟨h1, h2, h3, h4, h5, h6, h7, h8, h9⟩; cases m; cases n; simp_all

def M3.idM : M3 := ⟨1, 0, 0, 0, 1, 0, 0, 0, 1⟩

def M3.zero : M3 := ⟨0, 0, 0, 0, 0, 0, 0, 0, 0⟩

def M3.add (m n : M3) : M3 :=
  ⟨m.a + n.a, m.b + n.b, m.c + n.c, m.d + n.d, m.e + n.e, m.f + n.f,
   m.g + n.g, m.h + n.h, m.i + n.i⟩

instance : Add M3 := ⟨M3.add⟩

def M3.sub (m n : M3) : M3 :=
  ⟨m.a - n.a, m.b - n.b, m.c - n.c, m.d - n.d, m.e - n.e, m.f - n.f,
   m.g - n.g, m.h - n.h, m.i - n.i⟩

instance : Sub M3 := ⟨M3.sub⟩

def M3.smulM (c : ℝ) (m : M3) : M3 :=
  ⟨c * m.a, c * m.b, c * m.c, c * m.d, c * m.e, c * m.f, c * m.g, c * m.h, c * m.i⟩

instance : SMul ℝ M3 := ⟨M3.smulM⟩

def M3.mul (m n : M3) : M3 :=
  ⟨m.a * n.a + m.b * n.d + m.c * n.g,
   m.a * n.b + m.b * n.e + m.c * n.h,
   m.a * n.c + m.b * n.f + m.c * n.i,
   m.d * n.a + m.e * n.d + m.f * n.g,
   m.d * n.b + m.e * n.e + m.f * n.h,
   m.d * n.c + m.e * n.f + m.f * n.i,
   m.g * n.a + m.h * n.d + m.i * n.g,
   m.g * n.b + m.h * n.e + m.i * n.h,
   m.g * n.c + m.h * n.f + m.i * n.i⟩

instance : Mul M3 := ⟨M3.mul⟩

def M3.mulVec (m : M3) (v : V3) : V3 :=
  ⟨m.a * v.x + m.b * v.y + m.c * v.z,
   m.d * v.x + m.e * v.y + m.f * v.z,
   m.g * v.x + m.h * v.y + m.i * v.z⟩

def M3.transpose (m : M3) : M3 := ⟨m.a, m.d, m.g, m.b, m.e, m.h, m.c, m.f, m.i⟩

def M3.det (m : M3) : ℝ :=
  m.a * (m.e * m.i - m.f * m.h) - m.b * (m.d * m.i - m.f * m.g) +
    m.c * (m.d * m.h - m.e * m.g)

/-- True matrix inverse via adjugate over `ℝ`; models nalgebra `try_inverse`
in its success case (the source `.expect`s on it, panicking when singular;
every use below proves the determinant nonzero). -/
def M3.inv (m : M3) : M3 :=
  (1 / m.det) •
    (⟨m.e * m.i - m.f * m.h, m.c * m.h - m.b * m.i, m.b * m.f - m.c * m.e,
      m.f * m.g - m.d * m.i, m.a * m.i - m.c * m.g, m.c * m.d - m.a * m.f,
      m.d * m.h - m.e * m.g, m.b * m.g - m.a * m.h, m.a * m.e - m.b * m.d⟩ : M3)

theorem M3.mul_inv_self (m : M3) (hdet : m.det ≠ 0) : m.mul m.inv = M3.idM := by
  simp only [M3.mul, M3.inv, M3.idM, M3.det, HSMul.hSMul, SMul.smul, M3.smulM] at *
  rw [M3.ext_iff_m]
  field_simp
  refine ⟨by ring, by ring, by ring, by ring, by ring, by ring, by ring, by ring, by ring⟩

theorem M3.inv_mul_self (m : M3) (hdet : m.det ≠ 0) : m.inv.mul m = M3.idM := by
  simp only [M3.mul, M3.inv, M3.idM, M3.det, HSMul.hSMul, SMul.smul, M3.smulM] at *
  rw [M3.ext_iff_m]
  field_simp
  refine ⟨by ring, by ring, by ring, by ring, by ring, by ring, by ring, by ring, by ring⟩

/-- `SO3::hat` from `so3.rs`. -/
def M3.hat (xi : V3) : M3 := ⟨0, -xi.z, xi.y, xi.z, 0, -xi.x, -xi.y, xi.x, 0⟩

/-- `SO3::to_matrix` from `so3.rs` (with `q0 = w`, `q1 = x`, `q2 = y`, `q3 = z`). -/
def SO3.toMatrix (q : SO3) : M3 :=
  ⟨1 - (q.y * q.y + q.z * q.z) * 2, (q.x * q.y - q.w * q.z) * 2, (q.x * q.z + q.w * q.y) * 2,
   (q.x * q.y + q.w * q.z) * 2, 1 - (q.x * q.x + q.z * q.z) * 2, (q.y * q.z - q.w * q.x) * 2,
   (q.x * q.z - q.w * q.y) * 2, (q.y * q.z + q.w * q.x) * 2, 1 - (q.x * q.x + q.y * q.y) * 2⟩

/-- `SO3::adjoint` from `so3.rs`; textually the same formula as `to_matrix`. -/
def SO3.adjoint (q : SO3) : M3 := q.toMatrix

/-- `SO3::apply` (`MatrixLieGroup::apply` for SO3): quaternion sandwich
`(self * qv) * self.inverse()` of the pure quaternion `qv = (v, 0)`. -/
def SO3.apply (q : SO3) (v : V3) : V3 :=
  let qv : SO3 := ⟨v.x, v.y, v.z, 0⟩
  let r := (q.compose qv).compose q.inverse
  ⟨r.x, r.y, r.z⟩

/-- Assemble a 6-vector from rotation rows 0..2 and translation rows 3..5. -/
def mk6 (a b : V3) : Fin 6 → ℝ := fun i =>
  match i with
  | 0 => a.x
  | 1 => a.y
  | 2 => a.z
  | 3 => b.x
  | 4 => b.y
  | 5 => b.z

/-- SE(3) element: rotation quaternion plus translation (`se3.rs`,
fields `rot` and `xyz`). -/
structure SE3 where
  rot : SO3
  xyz : V3

theorem SE3.ext_iff_x (X Y : SE3) : X = Y ↔ X.rot = Y.rot ∧ X.xyz = Y.xyz := by
  constructor
  · intro hq; subst hq; exact ⟨rfl, rfl⟩
  · rintro ⟨h1, h2⟩; cases X; cases Y; simp_all

def SE3.identity : SE3 := ⟨SO3.identity, ⟨0, 0, 0⟩⟩

/-- `SE3::compose`. -/
def SE3.compose (X Y : SE3) : SE3 :=
  ⟨X.rot.compose Y.rot, X.rot.apply Y.xyz + X.xyz⟩

/-- `SE3::inverse`. -/
def SE3.inverse (X : SE3) : SE3 :=
  ⟨X.rot.inverse, -(X.rot.inverse.apply X.xyz)⟩

/-- The `V` matrix shared by `SE3::exp` and `SE3::log`:
`I + wx*B + wx*wx*C` with the source's Taylor fallback at `w2 < 1e-5`. -/
def SE3.vmat (xiRot : V3) : M3 :=
  let w2 := xiRot.normSq
  let B := if w2 < 1e-5 then (1/2 : ℝ) else (1 - Real.cos (Real.sqrt w2)) / w2
  let C := if w2 < 1e-5 then (1/6 : ℝ)
    else (1 - Real.sin (Real.sqrt w2) / Real.sqrt w2) / w2
  M3.idM + B • M3.hat xiRot + C • (M3.hat xiRot * M3.hat xiRot)

/-- `SE3::exp` from `se3.rs`: rotation part in rows 0..2, translation in rows 3..5. -/
def SE3.exp (xi : Fin 6 → ℝ) : SE3 :=
  let xiRot : V3 := ⟨xi 0, xi 1, xi 2⟩
  let xyz : V3 := ⟨xi 3, xi 4, xi 5⟩
  ⟨SO3.exp xiRot, (SE3.vmat xiRot).mulVec xyz⟩

/-- `SE3::log` from `se3.rs`.  The source computes `V.try_inverse().expect(..)`;
the model uses the adjugate inverse, which agrees whenever `det V ≠ 0`
(proved below for every use). -/
def SE3.log (X : SE3) : Fin 6 → ℝ :=
  let xiTheta := X.rot.log
  let xyz := (SE3.vmat xiTheta).inv.mulVec X.xyz
  mk6 xiTheta xyz

/-- The `V` matrix written the way claim C7 words it:
`V = I + B*hat(omega) + C*hat(omega)^2`, `B = (1-cos θ)/θ²`,
`C = (θ-sin θ)/θ³`, with Taylor fallbacks `1/2`, `1/6` for `θ² < 1e-5`. -/
def specVmatC7 (om : V3) : M3 :=
  M3.idM +
    (if om.normSq < 1e-5 then (1/2 : ℝ)
     else (1 - Real.cos (Real.sqrt om.normSq)) / om.normSq) • M3.hat om +
    (if om.normSq < 1e-5 then (1/6 : ℝ)
     else (Real.sqrt om.normSq - Real.sin (Real.sqrt om.normSq)) /
       (om.normSq * Real.sqrt om.normSq)) • (M3.hat om * M3.hat om)

theorem SE3.vmat_eq_spec (om : V3) : SE3.vmat om = specVmatC7 om := by
  simp only [SE3.vmat, specVmatC7]
  congr 2
  by_cases hb : om.normSq < 1e-5
  · rw [if_pos hb, if_pos hb]
  · rw [if_neg hb, if_neg hb]
    have hw2 : (0:ℝ) < om.normSq := lt_of_lt_of_le (by norm_num) (not_lt.mp hb)
    have ht : (0:ℝ) < Real.sqrt om.normSq := Real.sqrt_pos.mpr hw2
    rw [show (1 - Real.sin (Real.sqrt om.normSq) / Real.sqrt om.normSq) =
        (Real.sqrt om.normSq - Real.sin (Real.sqrt om.normSq)) / Real.sqrt om.normSq by
      field_simp]
    rw [div_div, mul_comm]

/-- C7: `SE3::exp(xi)` splits `xi` with rotation first (rows 0..2) and
translation second (rows 3..5), returns rotation `exp_SO3(omega)` and
translation `V*nu` with `V = I + B*hat(omega) + C*hat(omega)²`,
`B = (1-cos θ)/θ²`, `C = (θ-sin θ)/θ³`, and `B = 1/2`, `C = 1/6` when
`θ² < 1e-5`. -/
theorem c7_se3_exp (xi : Fin 6 → ℝ) :
    SE3.exp xi =
      ⟨SO3.exp ⟨xi 0, xi 1, xi 2⟩,
       (specVmatC7 ⟨xi 0, xi 1, xi 2⟩).mulVec ⟨xi 3, xi 4, xi 5⟩⟩ := by
  simp only [SE3.exp]
  rw [SE3.vmat_eq_spec]

/-- Forward-mode dual number modelling `num_dual::DualVec<f64, f64, N>`:
a real part plus an epsilon vector of partials.  Seed dimensions are
abstracted by indexing partials over `ℕ` (entries beyond the concrete `N`
are identically zero), so one definition covers every `N`. -/
structure Dual where
  re : ℝ
  eps : ℕ → ℝ

theorem Dual.ext_iff_d (p q : Dual) : p = q ↔ p.re = q.re ∧ ∀ k, p.eps k = q.eps k := by
  constructor
  · intro hq; subst hq; exact ⟨rfl, fun _ => rfl⟩
  · rintro ⟨h1, h2⟩; cases p; cases q
    simp only [mk.injEq]
    exact ⟨h1, funext h2⟩

/-- `DualVector::from_re`: zero derivative. -/
def Dual.ofRe (a : ℝ) : Dual := ⟨a, fun _ => 0⟩

def Dual.add (p q : Dual) : Dual := ⟨p.re + q.re, fun k => p.eps k + q.eps k⟩

def Dual.sub (p q : Dual) : Dual := ⟨p.re - q.re, fun k => p.eps k - q.eps k⟩

def Dual.mul (p q : Dual) : Dual :=
  ⟨p.re * q.re, fun k => p.re * q.eps k + q.re * p.eps k⟩

def Dual.div (p q : Dual) : Dual :=
  ⟨p.re / q.re, fun k => (p.eps k * q.re - p.re * q.eps k) / (q.re * q.re)⟩

def Dual.dsqrt (p : Dual) : Dual :=
  ⟨Real.sqrt p.re, fun k => p.eps k / (2 * Real.sqrt p.re)⟩

def Dual.dcos (p : Dual) : Dual :=
  ⟨Real.cos p.re, fun k => -Real.sin p.re * p.eps k⟩

/-- Dual-valued 3-vector (a tangent `VectorX<DualVector<N>>` of length 3). -/
structure V3D where
  x : Dual
  y : Dual
  z : Dual

def V3D.normSq (v : V3D) : Dual :=
  ((v.x.mul v.x).add (v.y.mul v.y)).add (v.z.mul v.z)

/-- Dual-valued SO3 (the `SO3<DualVector<N>>` alias). -/
structure SO3D where
  x : Dual
  y : Dual
  z : Dual
  w : Dual

/-- The generic `SO3::exp` body instantiated at the dual scalar type
(comparisons in `num_dual` are on real parts). -/
def SO3D.exp (xi : V3D) : SO3D :=
  let theta2 := xi.normSq
  if theta2.re < 1e-6 then
    ⟨xi.x.mul (Dual.ofRe (1/2)), xi.y.mul (Dual.ofRe (1/2)), xi.z.mul (Dual.ofRe (1/2)),
     (Dual.ofRe 1).sub (theta2.div (Dual.ofRe 8))⟩
  else
    let theta := theta2.dsqrt
    let w := (theta.mul (Dual.ofRe (1/2))).dcos
    let sinThetaHalf := ((Dual.ofRe 1).sub (w.mul w)).dsqrt
    ⟨(xi.x.div theta).mul sinThetaHalf, (xi.y.div theta).mul sinThetaHalf,
     (xi.z.div theta).mul sinThetaHalf, w⟩

/-- A unit seed: derivative 1 with respect to tangent coordinate `j`
(`num_dual::Derivative::derivative_generic`). -/
def seedEps (j : ℕ) : ℕ → ℝ := fun k => if k = j then 1 else 0

/-- The default `Variable::dual_exp` from `traits.rs` for SO3: a zero-valued
dual tangent vector carrying identity seeds at offsets `idx`, `idx+1`,
`idx+2`, pushed through `SO3::exp`. -/
def defaultDualExpSO3 (idx : ℕ) : SO3D :=
  SO3D.exp ⟨⟨0, seedEps idx⟩, ⟨0, seedEps (idx + 1)⟩, ⟨0, seedEps (idx + 2)⟩⟩

/-- The overridden `SO3::dual_exp` from `so3.rs`: epsilon `1/2` at offsets
`idx`, `idx+1`, `idx+2` on `x`, `y`, `z`, and an exact seedless `1` on `w`. -/
def so3DualExpOverride (idx : ℕ) : SO3D :=
  ⟨⟨0, fun k => if k = idx then 1/2 else 0⟩,
   ⟨0, fun k => if k = idx + 1 then 1/2 else 0⟩,
   ⟨0, fun k => if k = idx + 2 then 1/2 else 0⟩,
   Dual.ofRe 1⟩

/-- C9: the closed-form `SO3::dual_exp` override equals the default
`Variable::dual_exp` (dual `SO3::exp` of an identity-seeded zero tangent),
in real parts and in every epsilon entry, for every offset `idx` (seed
dimensions are abstracted over, see `Dual`). -/
theorem c9_dual_exp_equiv (idx : ℕ) : so3DualExpOverride idx = defaultDualExpSO3 idx := by
  have hsq : ∀ j : ℕ, (Dual.mul ⟨0, seedEps j⟩ ⟨0, seedEps j⟩) = ⟨0, fun _ => 0⟩ := by
    intro j
    rw [Dual.ext_iff_d]
    refine ⟨by simp [Dual.mul], fun k => by simp [Dual.mul]⟩
  have hn : (V3D.normSq ⟨⟨0, seedEps idx⟩, ⟨0, seedEps (idx + 1)⟩, ⟨0, seedEps (idx + 2)⟩⟩) =
      ⟨0, fun _ => 0⟩ := by
    simp only [V3D.normSq, hsq]
    rw [Dual.ext_iff_d]
    refine ⟨by simp [Dual.add], fun k => by simp [Dual.add]⟩
  simp only [defaultDualExpSO3, SO3D.exp, hn]
  rw [if_pos (by norm_num : (0:ℝ) < 1e-6)]
  simp only [so3DualExpOverride]
  have hx : ∀ j : ℕ, Dual.mul ⟨0, seedEps j⟩ (Dual.ofRe (1/2)) =
      ⟨0, fun k => if k = j then 1/2 else 0⟩ := by
    intro j
    rw [Dual.ext_iff_d]
    constructor
    · simp [Dual.mul, Dual.ofRe]
    · intro k
      simp only [Dual.mul, Dual.ofRe, seedEps]
      by_cases hk : k = j <;> simp [hk]
  have hw : (Dual.ofRe 1).sub (Dual.div ⟨0, fun _ => 0⟩ (Dual.ofRe 8)) = Dual.ofRe 1 := by
    rw [Dual.ext_iff_d]
    refine ⟨by simp [Dual.sub, Dual.div, Dual.ofRe], fun k => by
      simp [Dual.sub, Dual.div, Dual.ofRe]⟩
  rw [hx idx, hx (idx + 1), hx (idx + 2), hw]

/-- 2x2 real matrix, entries `(a b / c d)` (nalgebra `Matrix2<f64>`). -/
structure M2 where
  a : ℝ
  b : ℝ
  c : ℝ
  d : ℝ

def M2.det (m : M2) : ℝ := m.a * m.d - m.b * m.c

def M2.transpose (m : M2) : M2 := ⟨m.a, m.c, m.b, m.d⟩

/-- nalgebra `try_inverse` on a 2x2 (`se3.rs` / `gaussian.rs` dependency):
succeeds exactly when the determinant is nonzero. -/
def M2.tryInverse (m : M2) : Option M2 :=
  if m.det = 0 then none
  else some ⟨m.d / m.det, -m.b / m.det, -m.c / m.det, m.a / m.det⟩

/-- nalgebra `Cholesky::new` on a 2x2.  Per its contract it reads only the
lower triangle (`a`, `c`, `d`); it succeeds exactly when both pivots are
positive, returning the lower-triangular factor `L`. -/
def M2.cholesky (m : M2) : Option M2 :=
  if 0 < m.a ∧ 0 < m.d - (m.c / Real.sqrt m.a) ^ 2 then
    some ⟨Real.sqrt m.a, 0, m.c / Real.sqrt m.a,
      Real.sqrt (m.d - (m.c / Real.sqrt m.a) ^ 2)⟩
  else none

/-- `GaussianNoise::<2>::from_matrix_cov` from `gaussian.rs`:
`cov.try_inverse().expect(..).cholesky().expect(..).l().transpose()`.
The source `.expect` panics (aborting the process); `none` marks that abort. -/
def fromMatrixCov2 (cov : M2) : Option M2 :=
  match cov.tryInverse with
  | none => none
  | some inv =>
    match inv.cholesky with
    | none => none
    | some l => some l.transpose

/-- C2 counterexample: the singular (hence non-SPD) covariance `0` makes
`from_matrix_cov` panic — the process aborts, no error value is returned —
and the non-symmetric (hence non-SPD) covariance `(1 5 / 0 1)` is accepted,
so the constructor does not fail exactly on non-SPD inputs either. -/
theorem c2_counterexample :
    fromMatrixCov2 ⟨0, 0, 0, 0⟩ = none ∧
      (fromMatrixCov2 ⟨1, 5, 0, 1⟩).isSome = true := by
  constructor
  · simp [fromMatrixCov2, M2.tryInverse, M2.det]
  · have hdet : (M2.det ⟨1, 5, 0, 1⟩) = 1 := by norm_num [M2.det]
    have h1 : (M2.tryInverse ⟨1, 5, 0, 1⟩) = some ⟨1, -5, 0, 1⟩ := by
      rw [M2.tryInverse, if_neg (by rw [hdet]; norm_num)]
      rw [hdet]
      norm_num
    have h2 : (M2.cholesky ⟨1, -5, 0, 1⟩) = some ⟨1, 0, 0, 1⟩ := by
      rw [M2.cholesky, if_pos]
      · simp [Real.sqrt_one]
      · constructor
        · norm_num
        · simp [Real.sqrt_one]
    rw [fromMatrixCov2, h1]
    simp only [h2]
    rfl

/-- Success of the lower-triangle Cholesky of the 2x2 inverse covariance is
equivalent to positive definiteness of the symmetric covariance. -/
theorem c2_chol_succ (m : M2) (hsym : m.b = m.c) (hdet : m.det ≠ 0) :
    (0 < m.d / m.det ∧
      0 < m.a / m.det - (-m.c / m.det / Real.sqrt (m.d / m.det)) ^ 2) ↔
    (0 < m.a ∧ 0 < m.det) := by
  have hdetf : m.det = m.a * m.d - m.c * m.c := by rw [M2.det, hsym]
  constructor
  · rintro ⟨h1, h2⟩
    have hd : m.d ≠ 0 := by
      rintro h0
      rw [h0] at h1
      simp at h1
    have hsq : (-m.c / m.det / Real.sqrt (m.d / m.det)) ^ 2 =
        m.c ^ 2 / (m.det * m.d) := by
      rw [div_pow, Real.sq_sqrt h1.le, neg_div, neg_sq, div_pow]
      field_simp
      ring
    rw [hsq] at h2
    have hpiv : m.a / m.det - m.c ^ 2 / (m.det * m.d) = 1 / m.d := by
      field_simp
      linear_combination (-(m.det * m.d)) * hdetf
    rw [hpiv] at h2
    have hdpos : 0 < m.d := by
      rcases lt_or_gt_of_ne hd with hneg | hpos
      · exfalso
        have : 1 / m.d < 0 := by
          apply div_neg_of_pos_of_neg (by norm_num) hneg
        linarith
      · exact hpos
    have hdetpos : 0 < m.det := by
      rcases div_pos_iff.mp h1 with ⟨_, hq⟩ | ⟨hp, _⟩
      · exact hq
      · linarith
    have had : 0 < m.a * m.d := by nlinarith [sq_nonneg m.c]
    have ha : 0 < m.a := by
      by_contra hna
      push_neg at hna
      nlinarith
    exact ⟨ha, hdetpos⟩
  · rintro ⟨ha, hdetpos⟩
    have had : 0 < m.a * m.d := by nlinarith [sq_nonneg m.c]
    have hdpos : 0 < m.d := by
      by_contra hnd
      push_neg at hnd
      nlinarith
    have h1 : 0 < m.d / m.det := div_pos hdpos hdetpos
    refine ⟨h1, ?_⟩
    have hsq : (-m.c / m.det / Real.sqrt (m.d / m.det)) ^ 2 =
        m.c ^ 2 / (m.det * m.d) := by
      rw [div_pow, Real.sq_sqrt h1.le, neg_div, neg_sq, div_pow]
      field_simp
      ring
    have hpiv : m.a / m.det - m.c ^ 2 / (m.det * m.d) = 1 / m.d := by
      field_simp
      linear_combination (-(m.det * m.d)) * hdetf
    rw [hsq, hpiv]
    exact one_div_pos.mpr hdpos

/-- C2 amended: for a symmetric 2x2 covariance, `from_matrix_cov` fails
exactly when the matrix is not positive definite — but the failure is a
panic (`.expect`), aborting the process, not an error value returned to the
caller; and a non-symmetric covariance can be accepted (see the
counterexample), so non-SPD inputs are not all rejected. -/
theorem c2_amended (m : M2) (hsym : m.b = m.c) :
    fromMatrixCov2 m = none ↔ ¬ (0 < m.a ∧ 0 < m.det) := by
  by_cases hdet : m.det = 0
  · simp only [fromMatrixCov2, M2.tryInverse, if_pos hdet]
    constructor
    · intro _ hc
      rw [hdet] at hc
      exact lt_irrefl 0 hc.2
    · intro _
      trivial
  · simp only [fromMatrixCov2, M2.tryInverse, if_neg hdet]
    rw [M2.cholesky]
    by_cases hS : 0 < m.d / m.det ∧
        0 < m.a / m.det - (-m.c / m.det / Real.sqrt (m.d / m.det)) ^ 2
    · rw [if_pos hS]
      exact iff_of_false (by simp) (not_not_intro ((c2_chol_succ m hsym hdet).mp hS))
    · rw [if_neg hS]
      exact iff_of_true rfl (fun hc => hS ((c2_chol_succ m hsym hdet).mpr hc))

/-- Witness for `c2_amended` at the symmetric PD covariance `(2 0 / 0 2)`:
construction succeeds. -/
theorem c2_amended_witness :
    ((⟨2, 0, 0, 2⟩ : M2).b = (⟨2, 0, 0, 2⟩ : M2).c) ∧
      (fromMatrixCov2 ⟨2, 0, 0, 2⟩ = none ↔
        ¬ (0 < (⟨2, 0, 0, 2⟩ : M2).a ∧ 0 < (⟨2, 0, 0, 2⟩ : M2).det)) :=
  ⟨rfl, c2_amended ⟨2, 0, 0, 2⟩ rfl⟩

/-- IEEE-754 `f64` restricted to the special-value structure the claim is
about: finite reals plus the two infinities and NaN.  The operations below
follow the IEEE special-value rules; no rounding is modelled (the operations
on the paths of claim C10 are exact), and the sign of zero is collapsed to
the positive zero. -/
inductive FP where
  | fin : ℝ → FP
  | inf : FP
  | ninf : FP
  | nan : FP

/-- IEEE division restricted to the cases above; `x/0 = ±inf` for `x ≠ 0`
and `0/0 = NaN`. -/
def FP.div : FP → FP → FP
  | fin x, fin y =>
    if y = 0 then (if x = 0 then nan else if 0 < x then inf else ninf)
    else fin (x / y)
  | fin _, inf => fin 0
  | fin _, ninf => fin 0
  | inf, fin y => if 0 ≤ y then inf else ninf
  | ninf, fin y => if 0 ≤ y then ninf else inf
  | _, _ => nan

/-- IEEE multiplication on the special values; `±inf * 0 = NaN`. -/
def FP.mul : FP → FP → FP
  | fin x, fin y => fin (x * y)
  | fin x, inf => if x = 0 then nan else if 0 < x then inf else ninf
  | inf, fin x => if x = 0 then nan else if 0 < x then inf else ninf
  | fin x, ninf => if x = 0 then nan else if 0 < x then ninf else inf
  | ninf, fin x => if x = 0 then nan else if 0 < x then ninf else inf
  | inf, inf => inf
  | inf, ninf => ninf
  | ninf, inf => ninf
  | ninf, ninf => inf
  | _, _ => nan

/-- IEEE addition on the special values; `inf + (-inf) = NaN`. -/
def FP.add : FP → FP → FP
  | fin x, fin y => fin (x + y)
  | fin _, inf => inf
  | inf, fin _ => inf
  | fin _, ninf => ninf
  | ninf, fin _ => ninf
  | inf, inf => inf
  | ninf, ninf => ninf
  | _, _ => nan

def FP.isFinite : FP → Bool
  | fin _ => true
  | _ => false

/-- `GaussianNoise::<N>::from_scalar_sigma`:
`Matrix::from_diagonal_element(1.0 / sigma)`; no validation of `sigma`. -/
def fromScalarSigma (n : ℕ) (sigma : FP) : Fin n → Fin n → FP :=
  fun i j => if i = j then (FP.fin 1).div sigma else FP.fin 0

/-- `GaussianNoise::<N>::from_vec_sigma`:
`Matrix::from_diagonal(&sigma.map(|x| 1.0 / x))`; no validation. -/
def fromVecSigma (n : ℕ) (sigma : Fin n → FP) : Fin n → Fin n → FP :=
  fun i j => if i = j then (FP.fin 1).div (sigma i) else FP.fin 0

/-- `GaussianNoise::whiten_vec`: `sqrt_inf.mul_to(&v, &mut out)`, a plain
matrix-vector product accumulated left to right. -/
def whitenVec (n : ℕ) (l : Fin n → Fin n → FP) (v : Fin n → FP) : Fin n → FP :=
  fun i => (List.finRange n).foldr (fun j acc => ((l i j).mul (v j)).add acc) (FP.fin 0)

theorem FP.add_not_finite_left (x y : FP) (hx : x.isFinite = false) :
    (x.add y).isFinite = false := by
  cases x <;> cases y <;> simp_all [FP.add, FP.isFinite]

theorem FP.add_not_finite_right (x y : FP) (hy : y.isFinite = false) :
    (x.add y).isFinite = false := by
  cases x <;> cases y <;> simp_all [FP.add, FP.isFinite]

theorem FP.fin_zero_add (y : FP) : (FP.fin 0).add y = y := by
  cases y <;> simp [FP.add]

/-- Folding the whitening row sum: if every term of the row is the finite
zero except possibly at `i`, and the `i` term is non-finite, the sum is
non-finite. -/
theorem whiten_fold_not_finite (n : ℕ) (i : Fin n) (t : Fin n → FP)
    (hoff : ∀ j, j ≠ i → t j = FP.fin 0) (hi : (t i).isFinite = false) :
    ∀ l : List (Fin n),
      (i ∈ l → ((l.foldr (fun j acc => (t j).add acc) (FP.fin 0)).isFinite = false)) ∧
      (i ∉ l → l.foldr (fun j acc => (t j).add acc) (FP.fin 0) = FP.fin 0) := by
  intro l
  induction l with
  | nil =>
    refine ⟨fun hmem => absurd hmem (List.not_mem_nil i), fun _ => rfl⟩
  | cons j rest ih =>
    constructor
    · intro hmem
      by_cases hji : j = i
      · subst hji
        exact FP.add_not_finite_left _ _ hi
      · have hmem' : i ∈ rest := by
          rcases List.mem_cons.mp hmem with hc | hc
          · exact absurd hc.symm hji
          · exact hc
        exact FP.add_not_finite_right _ _ (ih.1 hmem')
    · intro hnmem
      have hji : j ≠ i := fun hc => hnmem (hc ▸ List.mem_cons_self j rest)
      have hni : i ∉ rest := fun hc => hnmem (List.mem_cons_of_mem j hc)
      rw [List.foldr_cons, ih.2 hni, hoff j hji, FP.fin_zero_add]

/-- C10: the sigma-based constructors validate nothing — any real `sigma`,
zero or negative included, yields a noise model with no error signalled
(the Rust signatures return `Self`, not `Result`); at `sigma = 0` the stored
square-root information has infinite diagonal entries, and `whiten_vec`
then returns a non-finite value in every coordinate instead of an error. -/
theorem c10_sigma_no_validation :
    (∀ (n : ℕ) (sigma : ℝ), sigma ≠ 0 → ∀ i : Fin n,
      fromScalarSigma n (FP.fin sigma) i i = FP.fin (1 / sigma)) ∧
    (∀ (n : ℕ) (i : Fin n), fromScalarSigma n (FP.fin 0) i i = FP.inf) ∧
    (∀ (n : ℕ) (s : Fin n → FP) (k : Fin n), s k = FP.fin 0 →
      fromVecSigma n s k k = FP.inf) ∧
    (∀ (n : ℕ) (v : Fin n → ℝ) (i : Fin n),
      (whitenVec n (fromScalarSigma n (FP.fin 0)) (fun j => FP.fin (v j)) i).isFinite =
        false) := by
  refine ⟨?_, ?_, ?_, ?_⟩
  · intro n sigma hs i
    simp [fromScalarSigma, FP.div, hs]
  · intro n i
    simp [fromScalarSigma, FP.div]
  · intro n s k hk
    simp [fromVecSigma, hk, FP.div]
  · intro n v i
    have hrow : ∀ j : Fin n, j ≠ i →
        ((fromScalarSigma n (FP.fin 0) i j).mul (FP.fin (v j))) = FP.fin 0 := by
      intro j hji
      have : fromScalarSigma n (FP.fin 0) i j = FP.fin 0 := by
        simp [fromScalarSigma, (Ne.symm hji)]
      rw [this]
      simp [FP.mul]
    have hdiag : ((fromScalarSigma n (FP.fin 0) i i).mul (FP.fin (v i))).isFinite =
        false := by
      have : fromScalarSigma n (FP.fin 0) i i = FP.inf := by
        simp [fromScalarSigma, FP.div]
      rw [this]
      by_cases h0 : v i = 0
      · simp [FP.mul, h0, FP.isFinite]
      · by_cases hpos : 0 < v i
        · simp [FP.mul, h0, hpos, FP.isFinite]
        · simp [FP.mul, h0, hpos, FP.isFinite]
    have := (whiten_fold_not_finite n i
      (fun j => (fromScalarSigma n (FP.fin 0) i j).mul (FP.fin (v j)))
      hrow hdiag (List.finRange n)).1 (List.mem_finRange i)
    exact this

/-- Witness for `c10_sigma_no_validation` at `n = 2`, `sigma = -1` and a
vector sigma with a zero entry. -/
theorem c10_sigma_no_validation_witness :
    ((-1 : ℝ) ≠ 0 ∧
      fromScalarSigma 2 (FP.fin (-1)) 0 0 = FP.fin (1 / (-1))) ∧
    ((fun _ : Fin 2 => FP.fin 0) 1 = FP.fin 0 ∧
      fromVecSigma 2 (fun _ => FP.fin 0) 1 1 = FP.inf) :=
  ⟨⟨by norm_num, c10_sigma_no_validation.1 2 (-1) (by norm_num) 0⟩,
   ⟨rfl, c10_sigma_no_validation.2.2.1 2 (fun _ => FP.fin 0) 1 rfl⟩⟩

theorem M3.mulVec_add (m : M3) (u v : V3) :
    m.mulVec (u + v) = m.mulVec u + m.mulVec v := by
  rw [V3.ext_iff']
  simp only [M3.mulVec, V3.add_x, V3.add_y, V3.add_z]
  refine ⟨by ring, by ring, by ring⟩

theorem M3.mul_mulVec (m n : M3) (v : V3) :
    (m * n).mulVec v = m.mulVec (n.mulVec v) := by
  show (M3.mul m n).mulVec v = _
  rw [V3.ext_iff']
  simp only [M3.mulVec, M3.mul]
  refine ⟨by ring, by ring, by ring⟩

theorem M3.add_mulVec (m n : M3) (v : V3) :
    (m + n).mulVec v = m.mulVec v + n.mulVec v := by
  show (M3.add m n).mulVec v = _
  rw [V3.ext_iff']
  simp only [M3.mulVec, M3.add, V3.add_x, V3.add_y, V3.add_z]
  refine ⟨by ring, by ring, by ring⟩

theorem M3.smul_mulVec (c : ℝ) (m : M3) (v : V3) :
    (c • m).mulVec v = c • m.mulVec v := by
  show (M3.smulM c m).mulVec v = _
  rw [V3.ext_iff']
  simp only [M3.mulVec, M3.smulM, V3.smul_x, V3.smul_y, V3.smul_z]
  refine ⟨by ring, by ring, by ring⟩

theorem M3.idM_mulVec (v : V3) : M3.idM.mulVec v = v := by
  rw [V3.ext_iff']
  simp only [M3.mulVec, M3.idM]
  refine ⟨by ring, by ring, by ring⟩

theorem M3.zero_mulVec (v : V3) : M3.zero.mulVec v = ⟨0, 0, 0⟩ := by
  rw [V3.ext_iff']
  simp only [M3.mulVec, M3.zero]
  refine ⟨by ring, by ring, by ring⟩

theorem M3.hat_mulVec (u v : V3) : (M3.hat u).mulVec v = u.cross v := by
  rw [V3.ext_iff']
  simp only [M3.mulVec, M3.hat, V3.cross]
  refine ⟨by ring, by ring, by ring⟩

theorem V3.add_zero' (v : V3) : v + (⟨0, 0, 0⟩ : V3) = v := by
  rw [V3.ext_iff']
  simp only [V3.add_x, V3.add_y, V3.add_z]
  refine ⟨by ring, by ring, by ring⟩

/-- Triple cross product against the same vector:
`v × (v × (v × w)) = -‖v‖² (v × w)` (a polynomial identity). -/
theorem V3.cross_cross_cross (v w : V3) :
    v.cross (v.cross (v.cross w)) = (-(v.normSq)) • v.cross w := by
  rw [V3.ext_iff']
  simp only [V3.cross, V3.normSq, V3.smul_x, V3.smul_y, V3.smul_z]
  refine ⟨by ring, by ring, by ring⟩

theorem SO3.compose_assoc (a b c : SO3) :
    (a.compose b).compose c = a.compose (b.compose c) := by
  rw [SO3.ext_iff_q]
  simp only [SO3.compose]
  refine ⟨by ring, by ring, by ring, by ring⟩

/-- Conjugation `q p q⁻¹` in components: the vector part is `q.apply` of the
vector part of `p` (polynomial identity), and the scalar part is
`p.w * ‖q‖²`. -/
theorem SO3.conj_eval (q p : SO3) :
    (q.compose p).compose q.inverse =
      ⟨(q.apply ⟨p.x, p.y, p.z⟩).x, (q.apply ⟨p.x, p.y, p.z⟩).y,
       (q.apply ⟨p.x, p.y, p.z⟩).z, p.w * q.normSq⟩ := by
  rw [SO3.ext_iff_q]
  simp only [SO3.compose, SO3.inverse, SO3.apply, SO3.normSq]
  refine ⟨by ring, by ring, by ring, by ring⟩

theorem SO3.apply_add (q : SO3) (u v : V3) :
    q.apply (u + v) = q.apply u + q.apply v := by
  rw [V3.ext_iff']
  simp only [SO3.apply, SO3.compose, SO3.inverse, V3.add_x, V3.add_y, V3.add_z]
  refine ⟨by ring, by ring, by ring⟩

theorem SO3.apply_smul (q : SO3) (c : ℝ) (v : V3) :
    q.apply (c • v) = c • q.apply v := by
  rw [V3.ext_iff']
  simp only [SO3.apply, SO3.compose, SO3.inverse, V3.smul_x, V3.smul_y, V3.smul_z]
  refine ⟨by ring, by ring, by ring⟩

theorem SO3.apply_neg (q : SO3) (v : V3) : q.apply (-v) = -q.apply v := by
  show q.apply (V3.neg v) = V3.neg (q.apply v)
  rw [V3.ext_iff']
  simp only [SO3.apply, SO3.compose, SO3.inverse, V3.neg]
  refine ⟨by ring, by ring, by ring⟩

/-- `apply` of a composition is the composition of `apply`s
(polynomial identity, no unit-norm hypothesis needed). -/
theorem SO3.compose_apply (q p : SO3) (v : V3) :
    (q.compose p).apply v = q.apply (p.apply v) := by
  rw [V3.ext_iff']
  simp only [SO3.apply, SO3.compose, SO3.inverse]
  refine ⟨by ring, by ring, by ring⟩

/-- Round trip through the conjugate: `q (q⁻¹ v q) q⁻¹ = ‖q‖⁴ v`. -/
theorem SO3.apply_inverse_apply (q : SO3) (v : V3) :
    q.apply (q.inverse.apply v) = (q.normSq * q.normSq) • v := by
  rw [V3.ext_iff']
  simp only [SO3.apply, SO3.compose, SO3.inverse, SO3.normSq, V3.smul_x, V3.smul_y,
    V3.smul_z]
  refine ⟨by ring, by ring, by ring⟩

/-- The rotation matrix acts as the quaternion sandwich plus an exact
`(1 - ‖q‖²)` correction (polynomial identity; for unit `q` they agree). -/
theorem SO3.toMatrix_mulVec (q : SO3) (v : V3) :
    q.toMatrix.mulVec v = q.apply v + (1 - q.normSq) • v := by
  rw [V3.ext_iff']
  simp only [SO3.toMatrix, M3.mulVec, SO3.apply, SO3.compose, SO3.inverse, SO3.normSq,
    V3.add_x, V3.add_y, V3.add_z, V3.smul_x, V3.smul_y, V3.smul_z]
  refine ⟨by ring, by ring, by ring⟩

/-- The sandwich scales squared norms by `‖q‖⁴` (polynomial identity). -/
theorem SO3.normSq_apply (q : SO3) (v : V3) :
    (q.apply v).normSq = q.normSq * q.normSq * v.normSq := by
  simp only [SO3.apply, SO3.compose, SO3.inverse, SO3.normSq, V3.normSq]
  ring

/-- Cross products are equivariant under the sandwich up to `‖q‖²`
(polynomial identity). -/
theorem SO3.apply_cross (q : SO3) (a b : V3) :
    (q.apply a).cross (q.apply b) = q.normSq • q.apply (a.cross b) := by
  rw [V3.ext_iff']
  simp only [SO3.apply, SO3.compose, SO3.inverse, SO3.normSq, V3.cross, V3.smul_x,
    V3.smul_y, V3.smul_z]
  refine ⟨by ring, by ring, by ring⟩

/-- Rodrigues form of the unit-quaternion sandwich:
`p v p⁻¹ = v + 2w (u × v) + 2 u × (u × v)` for unit `p` with vector part `u`. -/
theorem SO3.apply_rodrigues (p : SO3) (hp : p.normSq = 1) (v : V3) :
    p.apply v = v + (2 * p.w) • (⟨p.x, p.y, p.z⟩ : V3).cross v +
      (2 : ℝ) • (⟨p.x, p.y, p.z⟩ : V3).cross ((⟨p.x, p.y, p.z⟩ : V3).cross v) := by
  rw [SO3.normSq] at hp
  rw [V3.ext_iff']
  simp only [SO3.apply, SO3.compose, SO3.inverse, V3.cross, V3.add_x, V3.add_y, V3.add_z,
    V3.smul_x, V3.smul_y, V3.smul_z]
  refine ⟨by linear_combination v.x * hp, by linear_combination v.y * hp,
    by linear_combination v.z * hp⟩

theorem mk6_rotPart (a b : V3) :
    (⟨mk6 a b 0, mk6 a b 1, mk6 a b 2⟩ : V3) = a := by
  rw [V3.ext_iff']
  exact ⟨rfl, rfl, rfl⟩

theorem mk6_transPart (a b : V3) :
    (⟨mk6 a b 3, mk6 a b 4, mk6 a b 5⟩ : V3) = b := by
  rw [V3.ext_iff']
  exact ⟨rfl, rfl, rfl⟩

theorem mk6_eq_iff (a b a' b' : V3) : mk6 a b = mk6 a' b' ↔ a = a' ∧ b = b' := by
  constructor
  · intro hfn
    constructor
    · rw [V3.ext_iff']
      exact ⟨congrFun hfn 0, congrFun hfn 1, congrFun hfn 2⟩
    · rw [V3.ext_iff']
      exact ⟨congrFun hfn 3, congrFun hfn 4, congrFun hfn 5⟩
  · rintro ⟨h1, h2⟩
    rw [h1, h2]

/-- 6x6 matrix as four 3x3 blocks (top-left, top-right, bottom-left,
bottom-right), as assembled by `SE3::adjoint`. -/
structure M6 where
  tl : M3
  tr : M3
  bl : M3
  br : M3

def M6.mulVec (m : M6) (v : Fin 6 → ℝ) : Fin 6 → ℝ :=
  mk6 (m.tl.mulVec ⟨v 0, v 1, v 2⟩ + m.tr.mulVec ⟨v 3, v 4, v 5⟩)
      (m.bl.mulVec ⟨v 0, v 1, v 2⟩ + m.br.mulVec ⟨v 3, v 4, v 5⟩)

/-- `SE3::adjoint` from `se3.rs`: rotation matrix on both diagonal blocks,
`hat(t) * R` bottom-left, zeros top-right. -/
def SE3.adjoint (X : SE3) : M6 :=
  ⟨X.rot.toMatrix, M3.zero, M3.hat X.xyz * X.rot.toMatrix, X.rot.toMatrix⟩

/-- The SO(3) half of the adjoint identity, valid for every tangent vector:
`exp(Ad_q ξ) = q exp(ξ) q⁻¹` for unit `q`, where `Ad_q` is the source's
`adjoint` matrix. -/
theorem so3_adjoint_conj (q : SO3) (hq : q.normSq = 1) (xi : V3) :
    SO3.exp ((SO3.adjoint q).mulVec xi) = (q.compose (SO3.exp xi)).compose q.inverse := by
  have hAv : ∀ v : V3, (SO3.adjoint q).mulVec v = q.apply v := by
    intro v
    rw [SO3.adjoint, SO3.toMatrix_mulVec, hq]
    rw [show ((1:ℝ) - 1) • v = (⟨0, 0, 0⟩ : V3) by
      rw [V3.ext_iff']
      simp only [V3.smul_x, V3.smul_y, V3.smul_z]
      norm_num]
    exact V3.add_zero' _
  have hn : (q.apply xi).normSq = xi.normSq := by
    rw [SO3.normSq_apply, hq]
    ring
  rw [hAv]
  by_cases h : xi.normSq < 1e-6
  · have h' : (q.apply xi).normSq < 1e-6 := by rw [hn]; exact h
    rw [SO3.exp_taylor _ h', SO3.exp_taylor _ h, SO3.conj_eval]
    have hsm : (⟨xi.x * (1/2), xi.y * (1/2), xi.z * (1/2)⟩ : V3) = (1/2 : ℝ) • xi := by
      rw [V3.ext_iff']
      simp only [V3.smul_x, V3.smul_y, V3.smul_z]
      refine ⟨by ring, by ring, by ring⟩
    rw [hsm, SO3.apply_smul, SO3.ext_iff_q]
    simp only [V3.smul_x, V3.smul_y, V3.smul_z, hn, hq]
    refine ⟨by ring, by ring, by ring, by ring⟩
  · have h' : ¬ (q.apply xi).normSq < 1e-6 := by rw [hn]; exact h
    rw [SO3.exp_large _ h', SO3.exp_large _ h, SO3.conj_eval]
    have hsm : (⟨xi.x / Real.sqrt xi.normSq *
          Real.sqrt (1 - Real.cos (Real.sqrt xi.normSq * (1/2)) *
            Real.cos (Real.sqrt xi.normSq * (1/2))),
        xi.y / Real.sqrt xi.normSq *
          Real.sqrt (1 - Real.cos (Real.sqrt xi.normSq * (1/2)) *
            Real.cos (Real.sqrt xi.normSq * (1/2))),
        xi.z / Real.sqrt xi.normSq *
          Real.sqrt (1 - Real.cos (Real.sqrt xi.normSq * (1/2)) *
            Real.cos (Real.sqrt xi.normSq * (1/2)))⟩ : V3) =
        (Real.sqrt (1 - Real.cos (Real.sqrt xi.normSq * (1/2)) *
          Real.cos (Real.sqrt xi.normSq * (1/2))) / Real.sqrt xi.normSq) • xi := by
      rw [V3.ext_iff']
      simp only [V3.smul_x, V3.smul_y, V3.smul_z]
      refine ⟨by ring, by ring, by ring⟩
    rw [hsm, SO3.apply_smul, SO3.ext_iff_q]
    simp only [V3.smul_x, V3.smul_y, V3.smul_z, hn, hq]
    refine ⟨by ring, by ring, by ring, by ring⟩

/-- Closed form of the quaternion sandwich (exact polynomial identity,
the homogeneous rotation matrix of `q`). -/
theorem SO3.apply_eval (q : SO3) (v : V3) :
    q.apply v =
      ⟨(q.w * q.w + q.x * q.x - q.y * q.y - q.z * q.z) * v.x +
         2 * (q.x * q.y - q.w * q.z) * v.y + 2 * (q.x * q.z + q.w * q.y) * v.z,
       2 * (q.x * q.y + q.w * q.z) * v.x +
         (q.w * q.w - q.x * q.x + q.y * q.y - q.z * q.z) * v.y +
         2 * (q.y * q.z - q.w * q.x) * v.z,
       2 * (q.x * q.z - q.w * q.y) * v.x + 2 * (q.y * q.z + q.w * q.x) * v.y +
         (q.w * q.w - q.x * q.x - q.y * q.y + q.z * q.z) * v.z⟩ := by
  rw [V3.ext_iff']
  simp only [SO3.apply, SO3.compose, SO3.inverse]
  refine ⟨by ring, by ring, by ring⟩

theorem SO3.one_compose (p : SO3) : (⟨0, 0, 0, 1⟩ : SO3).compose p = p := by
  rw [SO3.ext_iff_q]
  simp only [SO3.compose]
  refine ⟨by ring, by ring, by ring, by ring⟩

theorem SO3.compose_one_inv (p : SO3) :
    p.compose (SO3.inverse ⟨0, 0, 0, 1⟩) = p := by
  rw [SO3.ext_iff_q]
  simp only [SO3.compose, SO3.inverse]
  refine ⟨by ring, by ring, by ring, by ring⟩

theorem SO3.id_inv_apply (v : V3) : (SO3.inverse ⟨0, 0, 0, 1⟩).apply v = v := by
  rw [V3.ext_iff']
  simp only [SO3.apply, SO3.compose, SO3.inverse]
  refine ⟨by ring, by ring, by ring⟩

theorem SO3.toMatrix_id : SO3.toMatrix ⟨0, 0, 0, 1⟩ = M3.idM := by
  rw [M3.ext_iff_m]
  simp only [SO3.toMatrix, M3.idM]
  norm_num

theorem M3.mulVec_zero (m : M3) : m.mulVec ⟨0, 0, 0⟩ = ⟨0, 0, 0⟩ := by
  rw [V3.ext_iff']
  simp only [M3.mulVec]
  refine ⟨by ring, by ring, by ring⟩

theorem V3.zero_add' (v : V3) : (⟨0, 0, 0⟩ : V3) + v = v := by
  rw [V3.ext_iff']
  simp only [V3.add_x, V3.add_y, V3.add_z]
  refine ⟨by ring, by ring, by ring⟩

/-- Branch lemma: the `V` matrix in the Taylor branch, applied to a vector. -/
theorem SE3.vmat_mulVec_taylor (om : V3) (h : om.normSq < 1e-5) (u : V3) :
    (SE3.vmat om).mulVec u =
      u + (1/2 : ℝ) • om.cross u + (1/6 : ℝ) • om.cross (om.cross u) := by
  simp only [SE3.vmat]
  rw [if_pos h, if_pos h, M3.add_mulVec, M3.add_mulVec, M3.idM_mulVec, M3.smul_mulVec,
    M3.smul_mulVec, M3.mul_mulVec, M3.hat_mulVec, M3.hat_mulVec]

/-- Branch lemma: the `V` matrix in the exact branch, applied to a vector. -/
theorem SE3.vmat_mulVec_large (om : V3) (h : ¬ om.normSq < 1e-5) (u : V3) :
    (SE3.vmat om).mulVec u =
      u + ((1 - Real.cos (Real.sqrt om.normSq)) / om.normSq) • om.cross u +
        ((1 - Real.sin (Real.sqrt om.normSq) / Real.sqrt om.normSq) / om.normSq) •
          om.cross (om.cross u) := by
  simp only [SE3.vmat]
  rw [if_neg h, if_neg h, M3.add_mulVec, M3.add_mulVec, M3.idM_mulVec, M3.smul_mulVec,
    M3.smul_mulVec, M3.mul_mulVec, M3.hat_mulVec, M3.hat_mulVec]

theorem SO3.apply_zero (q : SO3) : q.apply ⟨0, 0, 0⟩ = ⟨0, 0, 0⟩ := by
  rw [V3.ext_iff']
  simp only [SO3.apply, SO3.compose, SO3.inverse]
  refine ⟨by ring, by ring, by ring⟩

/-- Generic evaluation of the adjoint of `X0 = (identity rotation, t=(0,1,0))`
applied to a pure-rotation tangent `(h,0,0, 0,0,0)`. -/
theorem c8_adj_eval (h : ℝ) :
    (SE3.adjoint ⟨⟨0, 0, 0, 1⟩, ⟨0, 1, 0⟩⟩).mulVec (mk6 ⟨h, 0, 0⟩ ⟨0, 0, 0⟩) =
      mk6 ⟨h, 0, 0⟩ ⟨0, 0, -h⟩ := by
  simp only [SE3.adjoint, M6.mulVec, SO3.toMatrix_id, mk6_rotPart, mk6_transPart]
  simp only [M3.mul_mulVec, M3.idM_mulVec, M3.zero_mulVec, M3.mulVec_zero,
    M3.hat_mulVec, V3.add_zero']
  rw [mk6_eq_iff]
  refine ⟨rfl, ?_⟩
  rw [V3.ext_iff']
  simp only [V3.cross]
  refine ⟨by ring, by ring, by ring⟩

/-- `SE3::exp` on a tangent assembled by `mk6` splits into the two parts. -/
theorem c8_exp_split (a b : V3) :
    SE3.exp (mk6 a b) = ⟨SO3.exp a, (SE3.vmat a).mulVec b⟩ := by
  simp only [SE3.exp, mk6_rotPart, mk6_transPart]

/-- Generic evaluation of the conjugation side `X0 exp(ξ) X0⁻¹` for
`X0 = (identity rotation, (0,1,0))` and a pure-rotation tangent. -/
theorem c8_rhs_eval (h : ℝ) :
    ((⟨⟨0, 0, 0, 1⟩, ⟨0, 1, 0⟩⟩ : SE3).compose
        (SE3.exp (mk6 ⟨h, 0, 0⟩ ⟨0, 0, 0⟩))).compose
      (SE3.inverse ⟨⟨0, 0, 0, 1⟩, ⟨0, 1, 0⟩⟩) =
    ⟨SO3.exp ⟨h, 0, 0⟩, (SO3.exp ⟨h, 0, 0⟩).apply ⟨0, -1, 0⟩ + ⟨0, 1, 0⟩⟩ := by
  rw [c8_exp_split, M3.mulVec_zero]
  simp only [SE3.compose, SE3.inverse]
  rw [SE3.ext_iff_x]
  constructor
  · simp only [SO3.one_compose, SO3.compose_one_inv]
  · rw [SO3.one_compose, SO3.apply_zero, V3.zero_add', SO3.id_inv_apply]
    have hneg : -(⟨0, 1, 0⟩ : V3) = ⟨0, -1, 0⟩ := by
      show V3.neg _ = _
      rw [V3.ext_iff']
      simp only [V3.neg]
      norm_num
    rw [hneg]

/-- C8 counterexample: on SE(3) the adjoint identity
`exp(Ad_X ξ) = X exp(ξ) X⁻¹` fails in the code, both in the Taylor region
(at `ω = (1/2000,0,0)`, where the `V`-matrix Taylor branch and the
quaternion Taylor branch truncate differently) and beyond `2π`
(at `ω = (5π/2,0,0)`, where `exp` uses `|sin(θ/2)|`).  Both failures are at
`X = (identity rotation, t = (0,1,0))`, comparing translation z parts. -/
theorem c8_counterexample :
    (SE3.exp ((SE3.adjoint ⟨⟨0, 0, 0, 1⟩, ⟨0, 1, 0⟩⟩).mulVec
        (mk6 ⟨1/2000, 0, 0⟩ ⟨0, 0, 0⟩)) ≠
      ((⟨⟨0, 0, 0, 1⟩, ⟨0, 1, 0⟩⟩ : SE3).compose
          (SE3.exp (mk6 ⟨1/2000, 0, 0⟩ ⟨0, 0, 0⟩))).compose
        (SE3.inverse ⟨⟨0, 0, 0, 1⟩, ⟨0, 1, 0⟩⟩)) ∧
    (SE3.exp ((SE3.adjoint ⟨⟨0, 0, 0, 1⟩, ⟨0, 1, 0⟩⟩).mulVec
        (mk6 ⟨5 * Real.pi / 2, 0, 0⟩ ⟨0, 0, 0⟩)) ≠
      ((⟨⟨0, 0, 0, 1⟩, ⟨0, 1, 0⟩⟩ : SE3).compose
          (SE3.exp (mk6 ⟨5 * Real.pi / 2, 0, 0⟩ ⟨0, 0, 0⟩))).compose
        (SE3.inverse ⟨⟨0, 0, 0, 1⟩, ⟨0, 1, 0⟩⟩)) := by
  constructor
  · -- Taylor region, fully rational arithmetic
    have hLz : (SE3.exp ((SE3.adjoint ⟨⟨0, 0, 0, 1⟩, ⟨0, 1, 0⟩⟩).mulVec
        (mk6 ⟨1/2000, 0, 0⟩ ⟨0, 0, 0⟩))).xyz.z = -(1/2000) + (1/6) * (1/2000)^3 := by
      rw [c8_adj_eval, c8_exp_split]
      show ((SE3.vmat ⟨1/2000, 0, 0⟩).mulVec ⟨0, 0, -(1/2000)⟩).z = _
      rw [SE3.vmat_mulVec_taylor _ (by norm_num [V3.normSq])]
      simp only [V3.cross, V3.add_z, V3.smul_z]
      norm_num
    have hRz : (((⟨⟨0, 0, 0, 1⟩, ⟨0, 1, 0⟩⟩ : SE3).compose
        (SE3.exp (mk6 ⟨1/2000, 0, 0⟩ ⟨0, 0, 0⟩))).compose
        (SE3.inverse ⟨⟨0, 0, 0, 1⟩, ⟨0, 1, 0⟩⟩)).xyz.z =
        -(1/2000) + (1/8) * (1/2000)^3 := by
      rw [c8_rhs_eval]
      show ((SO3.exp ⟨1/2000, 0, 0⟩).apply ⟨0, -1, 0⟩ + ⟨0, 1, 0⟩).z = _
      rw [SO3.exp_taylor _ (by norm_num [V3.normSq]), SO3.apply_eval]
      simp only [V3.add_z, V3.normSq]
      norm_num
    intro heq
    have hz := congrArg (fun s => s.xyz.z) heq
    simp only at hz
    rw [hLz, hRz] at hz
    norm_num at hz
  · -- beyond 2π
    have hpi := Real.pi_gt_three
    have hth : (0:ℝ) < 5 * Real.pi / 2 := by linarith
    have hn2 : (V3.normSq ⟨5 * Real.pi / 2, 0, 0⟩) = (5 * Real.pi / 2) ^ 2 := by
      simp only [V3.normSq]
      ring
    have hsq : Real.sqrt (V3.normSq ⟨5 * Real.pi / 2, 0, 0⟩) = 5 * Real.pi / 2 := by
      rw [hn2, Real.sqrt_sq hth.le]
    have hbig : ¬ (V3.normSq ⟨5 * Real.pi / 2, 0, 0⟩) < 1e-5 := by
      rw [hn2]
      nlinarith
    have hbig6 : ¬ (V3.normSq ⟨5 * Real.pi / 2, 0, 0⟩) < 1e-6 := by
      rw [hn2]
      nlinarith
    have hcosth : Real.cos (5 * Real.pi / 2) = 0 := by
      rw [show 5 * Real.pi / 2 = Real.pi / 2 + 2 * Real.pi by ring, Real.cos_add_two_pi,
        Real.cos_pi_div_two]
    have hsinth : Real.sin (5 * Real.pi / 2) = 1 := by
      rw [show 5 * Real.pi / 2 = Real.pi / 2 + 2 * Real.pi by ring, Real.sin_add_two_pi,
        Real.sin_pi_div_two]
    have hcoshalf : Real.cos (5 * Real.pi / 2 * (1/2)) = -(Real.sqrt 2 / 2) := by
      rw [show 5 * Real.pi / 2 * (1/2) = Real.pi + Real.pi / 4 by ring, Real.cos_add,
        Real.cos_pi, Real.sin_pi, Real.cos_pi_div_four]
      ring
    have h2 : Real.sqrt 2 * Real.sqrt 2 = 2 := Real.mul_self_sqrt (by norm_num)
    have hsinhalf : Real.sqrt (1 - -(Real.sqrt 2 / 2) * -(Real.sqrt 2 / 2)) =
        Real.sqrt 2 / 2 := by
      rw [show 1 - -(Real.sqrt 2 / 2) * -(Real.sqrt 2 / 2) = (Real.sqrt 2 / 2) ^ 2 by
        rw [div_pow, Real.sq_sqrt (by norm_num : (0:ℝ) ≤ 2)]
        nlinarith]
      exact Real.sqrt_sq (by positivity)
    have hLz : (SE3.exp ((SE3.adjoint ⟨⟨0, 0, 0, 1⟩, ⟨0, 1, 0⟩⟩).mulVec
        (mk6 ⟨5 * Real.pi / 2, 0, 0⟩ ⟨0, 0, 0⟩))).xyz.z = -1 := by
      rw [c8_adj_eval, c8_exp_split]
      show ((SE3.vmat ⟨5 * Real.pi / 2, 0, 0⟩).mulVec ⟨0, 0, -(5 * Real.pi / 2)⟩).z = _
      rw [SE3.vmat_mulVec_large _ hbig, hsq, hn2, hcosth, hsinth]
      simp only [V3.cross, V3.add_z, V3.smul_z]
      field_simp
      ring
    have hRz : (((⟨⟨0, 0, 0, 1⟩, ⟨0, 1, 0⟩⟩ : SE3).compose
        (SE3.exp (mk6 ⟨5 * Real.pi / 2, 0, 0⟩ ⟨0, 0, 0⟩))).compose
        (SE3.inverse ⟨⟨0, 0, 0, 1⟩, ⟨0, 1, 0⟩⟩)).xyz.z = 1 := by
      rw [c8_rhs_eval]
      show ((SO3.exp ⟨5 * Real.pi / 2, 0, 0⟩).apply ⟨0, -1, 0⟩ + ⟨0, 1, 0⟩).z = _
      rw [SO3.exp_large _ hbig6, SO3.apply_eval, hsq, hcoshalf, hsinhalf]
      simp only [V3.add_z]
      rw [div_self hth.ne']
      linear_combination (1/2) * h2
    intro heq
    have hz := congrArg (fun s => s.xyz.z) heq
    simp only at hz
    rw [hLz, hRz] at hz
    norm_num at hz

theorem V3.one_smul' (v : V3) : (1:ℝ) • v = v := by
  rw [V3.ext_iff']
  simp only [V3.smul_x, V3.smul_y, V3.smul_z]
  refine ⟨by ring, by ring, by ring⟩

theorem V3.cross_neg (a b : V3) : a.cross (-b) = -(a.cross b) := by
  show a.cross (V3.neg b) = V3.neg (a.cross b)
  rw [V3.ext_iff']
  simp only [V3.cross, V3.neg]
  refine ⟨by ring, by ring, by ring⟩

theorem V3.cross_swap (a b : V3) : a.cross b = -(b.cross a) := by
  show a.cross b = V3.neg (b.cross a)
  rw [V3.ext_iff']
  simp only [V3.cross, V3.neg]
  refine ⟨by ring, by ring, by ring⟩

theorem V3.smul_cross (c : ℝ) (a b : V3) : (c • a).cross b = c • a.cross b := by
  rw [V3.ext_iff']
  simp only [V3.cross, V3.smul_x, V3.smul_y, V3.smul_z]
  refine ⟨by ring, by ring, by ring⟩

theorem V3.cross_smul (c : ℝ) (a b : V3) : a.cross (c • b) = c • a.cross b := by
  rw [V3.ext_iff']
  simp only [V3.cross, V3.smul_x, V3.smul_y, V3.smul_z]
  refine ⟨by ring, by ring, by ring⟩

theorem SO3.toMatrix_mulVec_unit (q : SO3) (hq : q.normSq = 1) (v : V3) :
    q.toMatrix.mulVec v = q.apply v := by
  rw [SO3.toMatrix_mulVec, hq]
  rw [show ((1:ℝ) - 1) • v = (⟨0, 0, 0⟩ : V3) by
    rw [V3.ext_iff']
    simp only [V3.smul_x, V3.smul_y, V3.smul_z]
    norm_num]
  exact V3.add_zero' _

theorem SO3.apply_inverse_apply_unit (q : SO3) (hq : q.normSq = 1) (v : V3) :
    q.apply (q.inverse.apply v) = v := by
  rw [SO3.apply_inverse_apply, hq]
  rw [show ((1:ℝ) * 1) = 1 by ring]
  exact V3.one_smul' v

theorem SO3.apply_cross_unit (q : SO3) (hq : q.normSq = 1) (a b : V3) :
    (q.apply a).cross (q.apply b) = q.apply (a.cross b) := by
  rw [SO3.apply_cross, hq, V3.one_smul']

theorem SO3.normSq_apply_unit (q : SO3) (hq : q.normSq = 1) (v : V3) :
    (q.apply v).normSq = v.normSq := by
  rw [SO3.normSq_apply, hq]
  ring

/-- The `V` matrix commutes with unit-quaternion rotations:
`V(q·ω)(q·ν) = q·(V(ω)ν)` (the Taylor/exact branch choice agrees because the
rotation preserves `‖ω‖²`). -/
theorem c8_vmat_equivariant (q : SO3) (hq : q.normSq = 1) (om nu : V3) :
    (SE3.vmat (q.apply om)).mulVec (q.apply nu) =
      q.apply ((SE3.vmat om).mulVec nu) := by
  have homn : (q.apply om).normSq = om.normSq := SO3.normSq_apply_unit q hq om
  by_cases hbig : om.normSq < 1e-5
  · have hbig' : (q.apply om).normSq < 1e-5 := by rw [homn]; exact hbig
    rw [SE3.vmat_mulVec_taylor _ hbig', SE3.vmat_mulVec_taylor _ hbig,
      SO3.apply_add, SO3.apply_add, SO3.apply_smul, SO3.apply_smul,
      SO3.apply_cross_unit q hq, SO3.apply_cross_unit q hq]
  · have hbig' : ¬ (q.apply om).normSq < 1e-5 := by rw [homn]; exact hbig
    rw [SE3.vmat_mulVec_large _ hbig', SE3.vmat_mulVec_large _ hbig,
      SO3.apply_add, SO3.apply_add, SO3.apply_smul, SO3.apply_smul,
      SO3.apply_cross_unit q hq, SO3.apply_cross_unit q hq, homn]

@[simp] theorem V3.neg_x (v : V3) : (-v).x = -v.x := rfl

@[simp] theorem V3.neg_y (v : V3) : (-v).y = -v.y := rfl

@[simp] theorem V3.neg_z (v : V3) : (-v).z = -v.z := rfl

/-- The `V`-matrix acting on `t × ω` equals `-(A ω×· + B ω×ω×·)` applied to
`t` — the matrix form of `exp(ω) = I + V(ω) hat(ω)` rearranged; this is the
exact-branch version. -/
theorem c8_vhat_formula (om' t : V3) (hbig : ¬ om'.normSq < 1e-5)
    (hu0 : 0 < om'.normSq) :
    (SE3.vmat om').mulVec (t.cross om') =
      (-(Real.sin (Real.sqrt om'.normSq) / Real.sqrt om'.normSq)) • (om'.cross t) +
        (-((1 - Real.cos (Real.sqrt om'.normSq)) / om'.normSq)) •
          (om'.cross (om'.cross t)) := by
  rw [SE3.vmat_mulVec_large _ hbig]
  rw [show t.cross om' = -(om'.cross t) from V3.cross_swap t om']
  rw [V3.cross_neg, V3.cross_neg, V3.cross_cross_cross]
  have hCu : (1 - Real.sin (Real.sqrt om'.normSq) / Real.sqrt om'.normSq) /
      om'.normSq * om'.normSq =
      1 - Real.sin (Real.sqrt om'.normSq) / Real.sqrt om'.normSq :=
    div_mul_cancel₀ _ hu0.ne'
  rw [V3.ext_iff']
  simp only [V3.add_x, V3.add_y, V3.add_z, V3.smul_x, V3.smul_y, V3.smul_z,
    V3.neg_x, V3.neg_y, V3.neg_z]
  refine ⟨by linear_combination ((om'.cross t).x) * hCu,
    by linear_combination ((om'.cross t).y) * hCu,
    by linear_combination ((om'.cross t).z) * hCu⟩

@[simp] theorem V3.mk_x (a b c : ℝ) : (V3.mk a b c).x = a := rfl

@[simp] theorem V3.mk_y (a b c : ℝ) : (V3.mk a b c).y = b := rfl

@[simp] theorem V3.mk_z (a b c : ℝ) : (V3.mk a b c).z = c := rfl

@[simp] theorem SO3.mk_qx (a b c d : ℝ) : (SO3.mk a b c d).x = a := rfl

@[simp] theorem SO3.mk_qy (a b c d : ℝ) : (SO3.mk a b c d).y = b := rfl

@[simp] theorem SO3.mk_qz (a b c d : ℝ) : (SO3.mk a b c d).z = c := rfl

@[simp] theorem SO3.mk_qw (a b c d : ℝ) : (SO3.mk a b c d).w = d := rfl

theorem V3.smul_smul' (a b : ℝ) (v : V3) : a • (b • v) = (a * b) • v := by
  rw [V3.ext_iff']
  simp only [V3.smul_x, V3.smul_y, V3.smul_z]
  refine ⟨by ring, by ring, by ring⟩

/-- Rodrigues form for a quaternion of the shape produced by the large
branch of `SO3::exp`: axis `om/th` scaled by `s`, scalar part `c`, with
`th² = ‖om‖²` and `s² = 1 - c²`. -/
theorem SO3.apply_scaled_quat (om w : V3) (s c th : ℝ)
    (hth : th * th = om.normSq) (hs : s * s = 1 - c * c) (hthne : th ≠ 0) :
    (⟨om.x / th * s, om.y / th * s, om.z / th * s, c⟩ : SO3).apply w =
      w + (2 * c * s / th) • om.cross w +
        (2 * (s * s) / (th * th)) • om.cross (om.cross w) := by
  have hN : (⟨om.x / th * s, om.y / th * s, om.z / th * s, c⟩ : SO3).normSq = 1 := by
    simp only [SO3.normSq, SO3.mk_qx, SO3.mk_qy, SO3.mk_qz, SO3.mk_qw]
    rw [V3.normSq] at hth
    field_simp
    linear_combination (-(s * s)) * hth + (th * th) * hs
  rw [SO3.apply_rodrigues _ hN]
  simp only [SO3.mk_qx, SO3.mk_qy, SO3.mk_qz, SO3.mk_qw]
  have hvec : (⟨om.x / th * s, om.y / th * s, om.z / th * s⟩ : V3) = (s / th) • om := by
    rw [V3.ext_iff']
    simp only [V3.smul_x, V3.smul_y, V3.smul_z, V3.mk_x, V3.mk_y, V3.mk_z]
    refine ⟨by ring, by ring, by ring⟩
  rw [hvec, V3.smul_cross, V3.cross_smul, V3.smul_cross, V3.smul_smul',
    V3.smul_smul', V3.smul_smul']
  rw [V3.ext_iff']
  simp only [V3.add_x, V3.add_y, V3.add_z, V3.smul_x, V3.smul_y, V3.smul_z]
  refine ⟨by ring, by ring, by ring⟩

/-- Conjugated exponential in rotation-vector form: for unit `q` and the
exact branch of `exp`, `(q exp(ω)) · (q⁻¹ t q) · ...` expands to the
Rodrigues action along the rotated axis `q·ω`. -/
theorem c8_conj_formula (q : SO3) (hq : q.normSq = 1) (om t : V3)
    (hbig6 : ¬ om.normSq < 1e-6)
    (hle : Real.sqrt om.normSq ≤ 2 * Real.pi) :
    (q.compose (SO3.exp om)).apply (q.inverse.apply t) =
      t + (Real.sin (Real.sqrt om.normSq) / Real.sqrt om.normSq) •
          ((q.apply om).cross t) +
        ((1 - Real.cos (Real.sqrt om.normSq)) / om.normSq) •
          ((q.apply om).cross ((q.apply om).cross t)) := by
  have hu0 : (0:ℝ) < om.normSq := lt_of_lt_of_le (by norm_num) (not_lt.mp hbig6)
  have hθ0 : (0:ℝ) < Real.sqrt om.normSq := Real.sqrt_pos.mpr hu0
  have hθθ : Real.sqrt om.normSq * Real.sqrt om.normSq = om.normSq :=
    Real.mul_self_sqrt hu0.le
  have hc2 : Real.cos (Real.sqrt om.normSq * (1/2)) *
      Real.cos (Real.sqrt om.normSq * (1/2)) ≤ 1 := by
    nlinarith [Real.cos_sq_le_one (Real.sqrt om.normSq * (1/2))]
  have hss : Real.sqrt (1 - Real.cos (Real.sqrt om.normSq * (1/2)) *
      Real.cos (Real.sqrt om.normSq * (1/2))) *
      Real.sqrt (1 - Real.cos (Real.sqrt om.normSq * (1/2)) *
      Real.cos (Real.sqrt om.normSq * (1/2))) =
      1 - Real.cos (Real.sqrt om.normSq * (1/2)) *
        Real.cos (Real.sqrt om.normSq * (1/2)) :=
    Real.mul_self_sqrt (by linarith)
  have hsin_eq : Real.sqrt (1 - Real.cos (Real.sqrt om.normSq * (1/2)) *
      Real.cos (Real.sqrt om.normSq * (1/2))) =
      Real.sin (Real.sqrt om.normSq * (1/2)) := by
    rw [show (1:ℝ) - Real.cos (Real.sqrt om.normSq * (1/2)) *
        Real.cos (Real.sqrt om.normSq * (1/2)) =
        1 - Real.cos (Real.sqrt om.normSq * (1/2)) ^ 2 by ring]
    rw [← Real.sin_eq_sqrt_one_sub_cos_sq (by positivity) (by linarith)]
  rw [SO3.compose_apply, SO3.exp_large om hbig6,
    SO3.apply_scaled_quat om _ _ _ _ hθθ hss hθ0.ne']
  rw [SO3.apply_add, SO3.apply_add, SO3.apply_smul, SO3.apply_smul]
  rw [← SO3.apply_cross_unit q hq om (q.inverse.apply t),
    ← SO3.apply_cross_unit q hq om (om.cross (q.inverse.apply t)),
    ← SO3.apply_cross_unit q hq om (q.inverse.apply t),
    SO3.apply_inverse_apply_unit q hq t]
  have hcoef1 : 2 * Real.cos (Real.sqrt om.normSq * (1/2)) *
      Real.sqrt (1 - Real.cos (Real.sqrt om.normSq * (1/2)) *
        Real.cos (Real.sqrt om.normSq * (1/2))) / Real.sqrt om.normSq =
      Real.sin (Real.sqrt om.normSq) / Real.sqrt om.normSq := by
    rw [hsin_eq]
    have h2 : Real.sin (Real.sqrt om.normSq) =
        2 * Real.sin (Real.sqrt om.normSq * (1/2)) *
          Real.cos (Real.sqrt om.normSq * (1/2)) := by
      conv_lhs => rw [show Real.sqrt om.normSq =
        2 * (Real.sqrt om.normSq * (1/2)) by ring]
      rw [Real.sin_two_mul]
    rw [h2]
    ring
  have hcoef2 : 2 * (Real.sqrt (1 - Real.cos (Real.sqrt om.normSq * (1/2)) *
      Real.cos (Real.sqrt om.normSq * (1/2))) *
      Real.sqrt (1 - Real.cos (Real.sqrt om.normSq * (1/2)) *
        Real.cos (Real.sqrt om.normSq * (1/2)))) /
      (Real.sqrt om.normSq * Real.sqrt om.normSq) =
      (1 - Real.cos (Real.sqrt om.normSq)) / om.normSq := by
    rw [hss, hθθ]
    have h2 : Real.cos (Real.sqrt om.normSq) =
        2 * Real.cos (Real.sqrt om.normSq * (1/2)) ^ 2 - 1 := by
      conv_lhs => rw [show Real.sqrt om.normSq =
        2 * (Real.sqrt om.normSq * (1/2)) by ring]
      rw [Real.cos_two_mul]
    rw [h2]
    ring_nf
  rw [hcoef1, hcoef2]

@[simp] theorem SE3.mk_rot (r : SO3) (t : V3) : (SE3.mk r t).rot = r := rfl

@[simp] theorem SE3.mk_xyz (r : SO3) (t : V3) : (SE3.mk r t).xyz = t := rfl

/-- The SE(3) adjoint identity in the all-exact region: unit rotation
storage, `1e-5 ≤ ‖ω‖²` (both `V` and the quaternion `exp` take their exact
branches) and `‖ω‖ ≤ 2π` (so `sqrt(1-w²) = sin(θ/2)`). -/
theorem c8_se3_exact (q : SO3) (t : V3) (xi : Fin 6 → ℝ) (hq : q.normSq = 1)
    (hlo : 1e-5 ≤ V3.normSq ⟨xi 0, xi 1, xi 2⟩)
    (hhi : Real.sqrt (V3.normSq ⟨xi 0, xi 1, xi 2⟩) ≤ 2 * Real.pi) :
    SE3.exp ((SE3.adjoint ⟨q, t⟩).mulVec xi) =
      ((⟨q, t⟩ : SE3).compose (SE3.exp xi)).compose (SE3.inverse ⟨q, t⟩) := by
  have hbig : ¬ (V3.normSq ⟨xi 0, xi 1, xi 2⟩) < 1e-5 := not_lt.mpr hlo
  have hbig6 : ¬ (V3.normSq ⟨xi 0, xi 1, xi 2⟩) < 1e-6 :=
    not_lt.mpr (le_trans (by norm_num) hlo)
  have hu0 : (0:ℝ) < V3.normSq ⟨xi 0, xi 1, xi 2⟩ :=
    lt_of_lt_of_le (by norm_num) hlo
  have hAd : (SE3.adjoint ⟨q, t⟩).mulVec xi =
      mk6 (q.apply ⟨xi 0, xi 1, xi 2⟩)
        (t.cross (q.apply ⟨xi 0, xi 1, xi 2⟩) + q.apply ⟨xi 3, xi 4, xi 5⟩) := by
    simp only [SE3.adjoint, M6.mulVec, SE3.mk_rot, SE3.mk_xyz,
      SO3.toMatrix_mulVec_unit q hq, M3.zero_mulVec, M3.mul_mulVec,
      M3.hat_mulVec, V3.add_zero']
  rw [hAd, c8_exp_split]
  simp only [SE3.exp, SE3.compose, SE3.inverse, SE3.mk_rot, SE3.mk_xyz]
  rw [SE3.ext_iff_x]
  constructor
  · have hconj := so3_adjoint_conj q hq ⟨xi 0, xi 1, xi 2⟩
    have hadj : (SO3.adjoint q).mulVec ⟨xi 0, xi 1, xi 2⟩ =
        q.apply ⟨xi 0, xi 1, xi 2⟩ :=
      SO3.toMatrix_mulVec_unit q hq _
    rw [hadj] at hconj
    exact hconj
  · rw [M3.mulVec_add, c8_vmat_equivariant q hq ⟨xi 0, xi 1, xi 2⟩ ⟨xi 3, xi 4, xi 5⟩]
    have hAomn : (q.apply ⟨xi 0, xi 1, xi 2⟩).normSq = V3.normSq ⟨xi 0, xi 1, xi 2⟩ :=
      SO3.normSq_apply_unit q hq _
    have hbig' : ¬ (q.apply ⟨xi 0, xi 1, xi 2⟩).normSq < 1e-5 := by
      rw [hAomn]; exact hbig
    have hu0' : (0:ℝ) < (q.apply ⟨xi 0, xi 1, xi 2⟩).normSq := by
      rw [hAomn]; exact hu0
    rw [c8_vhat_formula (q.apply ⟨xi 0, xi 1, xi 2⟩) t hbig' hu0', hAomn]
    rw [SO3.apply_neg, c8_conj_formula q hq ⟨xi 0, xi 1, xi 2⟩ t hbig6 hhi]
    rw [V3.ext_iff']
    simp only [V3.add_x, V3.add_y, V3.add_z, V3.smul_x, V3.smul_y, V3.smul_z,
      V3.neg_x, V3.neg_y, V3.neg_z]
    refine ⟨by ring, by ring, by ring⟩

/-- C8 amended: `exp(Ad_X ξ) = X exp(ξ) X⁻¹` holds on SO(3) for every unit
element and every tangent vector; on SE(3) it holds exactly when
`1e-5 ≤ ‖ω‖²` (both branch thresholds take the exact path) and `‖ω‖ ≤ 2π`
(the `sqrt(1-w²)` sine stays nonnegative); outside that region the code's
branch truncations break exact equality (see the counterexample). -/
theorem c8_amended :
    (∀ (q : SO3) (xi : V3), q.normSq = 1 →
      SO3.exp ((SO3.adjoint q).mulVec xi) =
        (q.compose (SO3.exp xi)).compose q.inverse) ∧
    (∀ (X : SE3) (xi : Fin 6 → ℝ), X.rot.normSq = 1 →
      1e-5 ≤ V3.normSq ⟨xi 0, xi 1, xi 2⟩ →
      Real.sqrt (V3.normSq ⟨xi 0, xi 1, xi 2⟩) ≤ 2 * Real.pi →
      SE3.exp ((SE3.adjoint X).mulVec xi) =
        (X.compose (SE3.exp xi)).compose X.inverse) := by
  constructor
  · exact fun q xi hq => so3_adjoint_conj q hq xi
  · intro X xi hq hlo hhi
    cases X with
    | mk q t => exact c8_se3_exact q t xi hq hlo hhi

/-- Witness for `c8_amended`: SO(3) at the identity quaternion with tangent
`(1,2,3)`, SE(3) at the identity pose with tangent `(1,0,0,0,0,0)`. -/
theorem c8_amended_witness :
    ((⟨0, 0, 0, 1⟩ : SO3).normSq = 1 ∧
      SO3.exp ((SO3.adjoint ⟨0, 0, 0, 1⟩).mulVec ⟨1, 2, 3⟩) =
        ((⟨0, 0, 0, 1⟩ : SO3).compose (SO3.exp ⟨1, 2, 3⟩)).compose
          (SO3.inverse ⟨0, 0, 0, 1⟩)) ∧
    ((1e-5 : ℝ) ≤ V3.normSq ⟨mk6 ⟨1, 0, 0⟩ ⟨0, 0, 0⟩ 0, mk6 ⟨1, 0, 0⟩ ⟨0, 0, 0⟩ 1,
        mk6 ⟨1, 0, 0⟩ ⟨0, 0, 0⟩ 2⟩ ∧
      SE3.exp ((SE3.adjoint ⟨⟨0, 0, 0, 1⟩, ⟨0, 0, 0⟩⟩).mulVec
          (mk6 ⟨1, 0, 0⟩ ⟨0, 0, 0⟩)) =
        ((⟨⟨0, 0, 0, 1⟩, ⟨0, 0, 0⟩⟩ : SE3).compose
            (SE3.exp (mk6 ⟨1, 0, 0⟩ ⟨0, 0, 0⟩))).compose
          (SE3.inverse ⟨⟨0, 0, 0, 1⟩, ⟨0, 0, 0⟩⟩)) := by
  have hq : (⟨0, 0, 0, 1⟩ : SO3).normSq = 1 := by norm_num [SO3.normSq]
  have hlo : (1e-5 : ℝ) ≤ V3.normSq ⟨mk6 ⟨1, 0, 0⟩ ⟨0, 0, 0⟩ 0,
      mk6 ⟨1, 0, 0⟩ ⟨0, 0, 0⟩ 1, mk6 ⟨1, 0, 0⟩ ⟨0, 0, 0⟩ 2⟩ := by
    show (1e-5 : ℝ) ≤ V3.normSq ⟨1, 0, 0⟩
    norm_num [V3.normSq]
  have hhi : Real.sqrt (V3.normSq ⟨mk6 ⟨1, 0, 0⟩ ⟨0, 0, 0⟩ 0,
      mk6 ⟨1, 0, 0⟩ ⟨0, 0, 0⟩ 1, mk6 ⟨1, 0, 0⟩ ⟨0, 0, 0⟩ 2⟩) ≤ 2 * Real.pi := by
    show Real.sqrt (V3.normSq ⟨1, 0, 0⟩) ≤ 2 * Real.pi
    rw [show V3.normSq ⟨1, 0, 0⟩ = 1 by norm_num [V3.normSq], Real.sqrt_one]
    linarith [Real.pi_gt_three]
  exact ⟨⟨hq, c8_amended.1 ⟨0, 0, 0, 1⟩ ⟨1, 2, 3⟩ hq⟩,
    ⟨hlo, c8_amended.2 ⟨⟨0, 0, 0, 1⟩, ⟨0, 0, 0⟩⟩ (mk6 ⟨1, 0, 0⟩ ⟨0, 0, 0⟩) hq hlo hhi⟩⟩

/-- Cubic lower Taylor bound for `arctan` on the nonnegative axis. -/
theorem arctan_ge_cubic (x : ℝ) (hx : 0 ≤ x) :
    x - x ^ 3 / 3 ≤ Real.arctan x := by
  have hder : ∀ y : ℝ, HasDerivAt (fun z => Real.arctan z - (z - z ^ 3 / 3))
      (1 / (1 + y ^ 2) - (1 - y ^ 2)) y := by
    intro y
    have h1 : HasDerivAt (fun z : ℝ => z - z ^ 3 / 3) (1 - y ^ 2) y := by
      have h2 : HasDerivAt (fun z : ℝ => z ^ 3) (3 * y ^ 2) y := by
        simpa using hasDerivAt_pow 3 y
      have h3 : HasDerivAt (fun z : ℝ => z ^ 3 / 3) (y ^ 2) y := by
        have := h2.div_const 3
        simpa using this.congr_deriv (by ring)
      simpa using (hasDerivAt_id y).sub h3
    exact (Real.hasDerivAt_arctan y).sub h1
  have hmono : Monotone (fun z => Real.arctan z - (z - z ^ 3 / 3)) := by
    apply monotone_of_deriv_nonneg
    · intro y
      exact ((hder y).differentiableAt)
    · intro y
      rw [(hder y).deriv]
      have hpos : (0:ℝ) < 1 + y ^ 2 := by positivity
      have : 1 / (1 + y ^ 2) - (1 - y ^ 2) = y ^ 4 / (1 + y ^ 2) := by
        field_simp
        ring
      rw [this]
      positivity
  have h0 : Real.arctan 0 - ((0:ℝ) - 0 ^ 3 / 3) = 0 := by
    simp [Real.arctan_zero]
  have := hmono hx
  simp only at this
  rw [h0] at this
  linarith

/-- Quintic upper Taylor bound for `arctan` on the nonnegative axis. -/
theorem arctan_le_quintic (x : ℝ) (hx : 0 ≤ x) :
    Real.arctan x ≤ x - x ^ 3 / 3 + x ^ 5 / 5 := by
  have hder : ∀ y : ℝ, HasDerivAt (fun z => (z - z ^ 3 / 3 + z ^ 5 / 5) - Real.arctan z)
      ((1 - y ^ 2 + y ^ 4) - 1 / (1 + y ^ 2)) y := by
    intro y
    have h2 : HasDerivAt (fun z : ℝ => z ^ 3) (3 * y ^ 2) y := by
      simpa using hasDerivAt_pow 3 y
    have h3 : HasDerivAt (fun z : ℝ => z ^ 3 / 3) (y ^ 2) y := by
      have := h2.div_const 3
      simpa using this.congr_deriv (by ring)
    have h4 : HasDerivAt (fun z : ℝ => z ^ 5) (5 * y ^ 4) y := by
      simpa using hasDerivAt_pow 5 y
    have h5 : HasDerivAt (fun z : ℝ => z ^ 5 / 5) (y ^ 4) y := by
      have := h4.div_const 5
      simpa using this.congr_deriv (by ring)
    have h6 : HasDerivAt (fun z : ℝ => z - z ^ 3 / 3 + z ^ 5 / 5) (1 - y ^ 2 + y ^ 4) y := by
      simpa using ((hasDerivAt_id y).sub h3).add h5
    exact h6.sub (Real.hasDerivAt_arctan y)
  have hmono : Monotone (fun z => (z - z ^ 3 / 3 + z ^ 5 / 5) - Real.arctan z) := by
    apply monotone_of_deriv_nonneg
    · intro y
      exact (hder y).differentiableAt
    · intro y
      rw [(hder y).deriv]
      have hpos : (0:ℝ) < 1 + y ^ 2 := by positivity
      have : (1 - y ^ 2 + y ^ 4) - 1 / (1 + y ^ 2) = y ^ 6 / (1 + y ^ 2) := by
        field_simp
        ring
      rw [this]
      positivity
  have h0 : ((0:ℝ) - 0 ^ 3 / 3 + 0 ^ 5 / 5) - Real.arctan 0 = 0 := by
    simp [Real.arctan_zero]
  have := hmono hx
  simp only at this
  rw [h0] at this
  linarith

theorem sqrt_1e6 : Real.sqrt 1e-6 = 1e-3 := by
  rw [show (1e-6 : ℝ) = (1e-3) ^ 2 by norm_num]
  exact Real.sqrt_sq (by norm_num)

set_option maxHeartbeats 1600000 in
/-- Master round-trip lemma for SO3: `log(exp ξ)` is either exactly `ξ`
(both branches exact), or a scalar multiple `ρ ξ` with tightly bounded
`|ρ-1|` (a Taylor branch was involved, which also forces `‖ξ‖² < 5e-6`). -/
theorem so3_log_exp_cases (xi : V3) (hle : xi.normSq ≤ 1) :
    SO3.log (SO3.exp xi) = xi ∨
    (∃ ρ : ℝ, SO3.log (SO3.exp xi) = ρ • xi ∧ |ρ - 1| ≤ 5e-8 ∧
      |ρ - 1| * Real.sqrt xi.normSq ≤ 4.5e-11 ∧ xi.normSq < 5e-6) := by
  have h0u : 0 ≤ xi.normSq := xi.normSq_nonneg
  by_cases hA : xi.normSq < 1e-6
  · -- exp Taylor forces log Taylor: rational error analysis
    right
    rw [SO3.exp_taylor xi hA]
    have hn2 : V3.normSq ⟨xi.x * (1/2), xi.y * (1/2), xi.z * (1/2)⟩ = xi.normSq / 4 := by
      simp only [V3.normSq, V3.mk_x, V3.mk_y, V3.mk_z]
      ring
    have hcond : V3.normSq ⟨xi.x * (1/2), xi.y * (1/2), xi.z * (1/2)⟩ < 1e-6 := by
      rw [hn2]
      linarith
    rw [SO3.log_taylor _ hcond]
    have hv : (⟨xi.x * (1/2), xi.y * (1/2), xi.z * (1/2)⟩ : V3) = (1/2 : ℝ) • xi := by
      rw [V3.ext_iff']
      simp only [V3.smul_x, V3.smul_y, V3.smul_z, V3.mk_x, V3.mk_y, V3.mk_z]
      refine ⟨by ring, by ring, by ring⟩
    simp only [SO3.mk_qx, SO3.mk_qy, SO3.mk_qz, SO3.mk_qw]
    rw [hn2, hv, V3.smul_smul']
    set u := xi.normSq with hu
    set w := 1 - u / 8 with hw
    clear_value w
    clear_value u
    have hA' : u < 1e-6 := hA
    have h0u' : 0 ≤ u := h0u
    have hwlb : (0.99 : ℝ) ≤ w := by rw [hw]; nlinarith
    have hwpos : (0:ℝ) < w := by linarith
    have hwne : w ≠ 0 := ne_of_gt hwpos
    have hw3 : (0.97 : ℝ) ≤ w * w * w := by nlinarith
    have e1 : (2 / w - 2/3 * (u / 4) / (w * w * w)) * (1/2) - 1
        = (w * w - u/12 - w * w * w) / (w * w * w) := by
      field_simp
      ring
    have e2 : w * w - u/12 - w * w * w = u/24 - u^2/32 + u^3/512 := by
      rw [hw]
      ring
    have hkey : (2 / w - 2/3 * (u / 4) / (w * w * w)) * (1/2) - 1
        = (u/24 - u^2/32 + u^3/512) / (w * w * w) := by rw [e1, e2]
    have hN0 : (0:ℝ) ≤ u/24 - u^2/32 + u^3/512 := by nlinarith
    have hNle : u/24 - u^2/32 + u^3/512 ≤ u/24 := by nlinarith
    have hsq : Real.sqrt u ≤ 1e-3 := by
      calc Real.sqrt u ≤ Real.sqrt 1e-6 := Real.sqrt_le_sqrt (by linarith)
        _ = 1e-3 := sqrt_1e6
    have hsq0 : 0 ≤ Real.sqrt u := Real.sqrt_nonneg u
    refine ⟨(2 / w - 2/3 * (u / 4) / (w * w * w)) * (1/2), rfl, ?_, ?_, by linarith⟩
    · have hq0 : (0:ℝ) ≤ (u/24 - u^2/32 + u^3/512) / (w * w * w) :=
        div_nonneg hN0 (by linarith)
      rw [hkey, abs_of_nonneg hq0, div_le_iff (by linarith)]
      linarith
    · have hq0 : (0:ℝ) ≤ (u/24 - u^2/32 + u^3/512) / (w * w * w) :=
        div_nonneg hN0 (by linarith)
      rw [hkey, abs_of_nonneg hq0, div_mul_eq_mul_div, div_le_iff (by linarith)]
      have h1 : (u/24 - u^2/32 + u^3/512) * Real.sqrt u ≤ u/24 * 1e-3 :=
        mul_le_mul hNle hsq hsq0 (by positivity)
      linarith
  · -- exp exact branch
    have hu0 : (0:ℝ) < xi.normSq := lt_of_lt_of_le (by norm_num) (not_lt.mp hA)
    rw [SO3.exp_large xi hA]
    set θ := Real.sqrt xi.normSq with hθdef
    set c := Real.cos (θ * (1/2)) with hcdef
    set s := Real.sqrt (1 - c * c) with hsdef
    clear_value s
    clear_value c
    clear_value θ
    have hθθ : θ * θ = xi.normSq := by rw [hθdef]; exact Real.mul_self_sqrt hu0.le
    have hθ0 : (0:ℝ) < θ := by rw [hθdef]; exact Real.sqrt_pos.mpr hu0
    have hθne : θ ≠ 0 := ne_of_gt hθ0
    have hθ1 : θ ≤ 1 := by
      rw [hθdef]
      calc Real.sqrt xi.normSq ≤ Real.sqrt 1 := Real.sqrt_le_sqrt hle
        _ = 1 := Real.sqrt_one
    have hθlb : (1e-3 : ℝ) ≤ θ := by
      rw [hθdef, show (1e-3 : ℝ) = Real.sqrt 1e-6 from sqrt_1e6.symm]
      exact Real.sqrt_le_sqrt (not_lt.mp hA)
    have hπ3 := Real.pi_gt_three
    have hcpos : (0:ℝ) < c := by
      rw [hcdef]
      apply Real.cos_pos_of_mem_Ioo
      constructor
      · linarith
      · linarith
    have hcne : c ≠ 0 := ne_of_gt hcpos
    have hc1 : c ≤ 1 := by rw [hcdef]; exact Real.cos_le_one _
    have hclb : (7/8 : ℝ) ≤ c := by
      have h := Real.one_sub_sq_div_two_le_cos (x := θ * (1/2))
      rw [hcdef]
      nlinarith
    have hs0 : (0:ℝ) ≤ s := by rw [hsdef]; exact Real.sqrt_nonneg _
    have hss : s * s = 1 - c * c := by
      rw [hsdef]
      exact Real.mul_self_sqrt (by nlinarith)
    have hsin_eq : s = Real.sin (θ * (1/2)) := by
      rw [hsdef, hcdef,
        show (1:ℝ) - Real.cos (θ * (1/2)) * Real.cos (θ * (1/2))
          = 1 - Real.cos (θ * (1/2)) ^ 2 by ring]
      exact (Real.sin_eq_sqrt_one_sub_cos_sq (by linarith) (by linarith)).symm
    have hθθ' : θ * θ = xi.x * xi.x + xi.y * xi.y + xi.z * xi.z := by
      rw [hθθ, V3.normSq]
    have hinv : θ⁻¹ * θ = 1 := inv_mul_cancel₀ hθne
    have hn2 : V3.normSq ⟨xi.x / θ * s, xi.y / θ * s, xi.z / θ * s⟩ = s * s := by
      simp only [V3.normSq, V3.mk_x, V3.mk_y, V3.mk_z]
      linear_combination (-(s * s * θ⁻¹ * θ⁻¹)) * hθθ' + (s * s * (θ⁻¹ * θ + 1)) * hinv
    have hv : (⟨xi.x / θ * s, xi.y / θ * s, xi.z / θ * s⟩ : V3) = (s / θ) • xi := by
      rw [V3.ext_iff']
      simp only [V3.smul_x, V3.smul_y, V3.smul_z, V3.mk_x, V3.mk_y, V3.mk_z]
      refine ⟨by ring, by ring, by ring⟩
    have hTan : s / c = Real.tan (θ * (1/2)) := by
      rw [hsin_eq, hcdef, Real.tan_eq_sin_div_cos]
    have hθat : θ = 2 * Real.arctan (s / c) := by
      rw [hTan, Real.arctan_tan (by linarith) (by linarith)]
      ring
    by_cases hB : V3.normSq ⟨xi.x / θ * s, xi.y / θ * s, xi.z / θ * s⟩ < 1e-6
    · -- log Taylor: arctan quintic analysis
      right
      have hss6 : s * s < 1e-6 := by rw [hn2] at hB; exact hB
      have hslt : s < 1e-3 := by nlinarith
      rw [SO3.log_taylor _ hB]
      simp only [SO3.mk_qx, SO3.mk_qy, SO3.mk_qz, SO3.mk_qw]
      rw [hn2, hv, V3.smul_smul']
      have hT0 : (0:ℝ) ≤ s / c := by positivity
      have hTle : s / c ≤ 1.2e-3 := by
        rw [div_le_iff hcpos]
        nlinarith
      have hkey : (2 / c - 2/3 * (s * s) / (c * c * c)) * s =
          2 * (s/c) - 2/3 * (s/c)^3 := by
        field_simp
        ring
      have hup : 2 * (s/c) - 2/3 * (s/c)^3 - θ ≤ 0 := by
        rw [hθat]
        have h := arctan_ge_cubic (s/c) hT0
        nlinarith
      have hlo2 : -(2/5 * (s/c)^5) ≤ 2 * (s/c) - 2/3 * (s/c)^3 - θ := by
        rw [hθat]
        have h := arctan_le_quintic (s/c) hT0
        nlinarith
      have hquint : (2:ℝ)/5 * (s/c)^5 ≤ 1e-15 := by
        have h5 : (s/c)^5 ≤ (1.2e-3)^5 := pow_le_pow_left hT0 hTle 5
        nlinarith
      have habs : |(2 / c - 2/3 * (s * s) / (c * c * c)) * s - θ| ≤ 1e-15 := by
        rw [hkey, abs_le]
        exact ⟨by linarith, by linarith⟩
      have hρθ : ((2 / c - 2/3 * (s * s) / (c * c * c)) * (s / θ) - 1) * θ =
          (2 / c - 2/3 * (s * s) / (c * c * c)) * s - θ := by
        field_simp
        ring
      have hsθ : |(2 / c - 2/3 * (s * s) / (c * c * c)) * (s / θ) - 1| * θ ≤ 1e-15 := by
        rw [show |(2 / c - 2/3 * (s * s) / (c * c * c)) * (s / θ) - 1| * θ =
            |((2 / c - 2/3 * (s * s) / (c * c * c)) * (s / θ) - 1) * θ| by
          rw [abs_mul, abs_of_nonneg hθ0.le]]
        rw [hρθ]
        exact habs
      have habs0 : 0 ≤ |(2 / c - 2/3 * (s * s) / (c * c * c)) * (s / θ) - 1| :=
        abs_nonneg _
      have hρ1 : |(2 / c - 2/3 * (s * s) / (c * c * c)) * (s / θ) - 1| ≤ 1e-12 := by
        nlinarith [mul_nonneg habs0 (sub_nonneg.mpr hθlb)]
      have hsin_gt := Real.sin_gt_sub_cube
        (x := θ * (1/2)) (by nlinarith) (by nlinarith)
      rw [← hsin_eq] at hsin_gt
      have hθ3 : θ * θ * θ ≤ θ := by nlinarith
      have hθsmall : θ < 2.14e-3 := by nlinarith
      have hu5 : xi.normSq < 5e-6 := by nlinarith [hθθ]
      exact ⟨(2 / c - 2/3 * (s * s) / (c * c * c)) * (s / θ), rfl,
        by linarith, by linarith, hu5⟩
    · -- log exact: the round trip is exact
      left
      have hss6 : ¬ s * s < 1e-6 := by rw [hn2] at hB; exact hB
      have hspos : (0:ℝ) < s := by nlinarith [not_lt.mp hss6]
      have hsne : s ≠ 0 := ne_of_gt hspos
      rw [SO3.log_large _ hB]
      simp only [SO3.mk_qx, SO3.mk_qy, SO3.mk_qz, SO3.mk_qw]
      rw [hn2, hv, if_pos hcpos.le]
      have hsqrt_ss : Real.sqrt (s * s) = s := Real.sqrt_mul_self hs0
      rw [hsqrt_ss]
      have hat : atan2 s (1 * c) = θ * (1/2) := by
        rw [one_mul, atan2, if_pos hcpos, hTan,
          Real.arctan_tan (by linarith) (by linarith)]
      rw [hat, V3.smul_smul']
      rw [show (1:ℝ) * (θ * (1/2)) * 2 / s * (s / θ) = 1 by
        field_simp]
      exact V3.one_smul' xi
/-- Squared euclidean norm of a 6-tangent (`VectorX` norm in the tests). -/
def normSq6 (v : Fin 6 → ℝ) : ℝ :=
  v 0 * v 0 + v 1 * v 1 + v 2 * v 2 + v 3 * v 3 + v 4 * v 4 + v 5 * v 5

/-- Euclidean norm of a 6-tangent. -/
def norm6 (v : Fin 6 → ℝ) : ℝ := Real.sqrt (normSq6 v)

theorem normSq6_nonneg (v : Fin 6 → ℝ) : 0 ≤ normSq6 v := by
  simp only [normSq6]
  nlinarith [sq_nonneg (v 0), sq_nonneg (v 1), sq_nonneg (v 2), sq_nonneg (v 3),
    sq_nonneg (v 4), sq_nonneg (v 5)]

theorem normSq6_split (xi : Fin 6 → ℝ) :
    normSq6 xi = V3.normSq ⟨xi 0, xi 1, xi 2⟩ + V3.normSq ⟨xi 3, xi 4, xi 5⟩ := by
  simp only [normSq6, V3.normSq, V3.mk_x, V3.mk_y, V3.mk_z]
  ring

theorem normSq6_mk6_sub (a b : V3) (xi : Fin 6 → ℝ) :
    normSq6 (fun i => mk6 a b i - xi i)
      = (a - ⟨xi 0, xi 1, xi 2⟩).normSq + (b - ⟨xi 3, xi 4, xi 5⟩).normSq := by
  show (a.x - xi 0) * (a.x - xi 0) + (a.y - xi 1) * (a.y - xi 1) +
      (a.z - xi 2) * (a.z - xi 2) + (b.x - xi 3) * (b.x - xi 3) +
      (b.y - xi 4) * (b.y - xi 4) + (b.z - xi 5) * (b.z - xi 5) = _
  simp only [V3.normSq, V3.sub_x, V3.sub_y, V3.sub_z, V3.mk_x, V3.mk_y, V3.mk_z]
  ring

theorem V3.normSq_smul (c : ℝ) (v : V3) : (c • v).normSq = c ^ 2 * v.normSq := by
  simp only [V3.normSq, V3.smul_x, V3.smul_y, V3.smul_z]
  ring

theorem V3.normSq_sub (a b : V3) :
    (a - b).normSq = a.normSq - 2 * V3.dot a b + b.normSq := by
  simp only [V3.normSq, V3.dot, V3.sub_x, V3.sub_y, V3.sub_z]
  ring

/-- Lagrange: `‖w × v‖² ≤ ‖w‖² ‖v‖²`. -/
theorem V3.lagrange (w v : V3) : (V3.cross w v).normSq ≤ w.normSq * v.normSq := by
  have h : w.normSq * v.normSq - (V3.cross w v).normSq = (V3.dot w v) ^ 2 := by
    simp only [V3.normSq, V3.dot, V3.cross, V3.mk_x, V3.mk_y, V3.mk_z]
    ring
  nlinarith [sq_nonneg (V3.dot w v)]

/-- Squared norm of a Taylor-shaped `V` image, expanded through the cross-product
orthogonality relations (a polynomial identity in the components). -/
theorem V3.normSq_taylor_apply (a b : ℝ) (w x : V3) :
    (x + a • V3.cross w x + b • V3.cross w (V3.cross w x)).normSq
      = x.normSq + (a ^ 2 - 2 * b) * (V3.cross w x).normSq
        + b ^ 2 * (V3.cross w (V3.cross w x)).normSq := by
  simp only [V3.normSq, V3.cross, V3.add_x, V3.add_y, V3.add_z,
    V3.smul_x, V3.smul_y, V3.smul_z, V3.mk_x, V3.mk_y, V3.mk_z]
  ring

/-- The two cross-product directions are orthogonal. -/
theorem V3.normSq_cross_pair (A B : ℝ) (w v : V3) :
    (A • V3.cross w v + B • V3.cross w (V3.cross w v)).normSq
      = A ^ 2 * (V3.cross w v).normSq
        + B ^ 2 * (V3.cross w (V3.cross w v)).normSq := by
  simp only [V3.normSq, V3.cross, V3.add_x, V3.add_y, V3.add_z,
    V3.smul_x, V3.smul_y, V3.smul_z, V3.mk_x, V3.mk_y, V3.mk_z]
  ring

theorem M3.mulVec_sub (m : M3) (a b : V3) :
    m.mulVec (a - b) = m.mulVec a - m.mulVec b := by
  rw [V3.ext_iff']
  simp only [M3.mulVec, V3.sub_x, V3.sub_y, V3.sub_z]
  refine ⟨by ring, by ring, by ring⟩

/-- Determinant of `I + a·hat(v) + b·hat(v)²` in closed form. -/
theorem M3.det_id_hat (a b : ℝ) (v : V3) :
    (M3.idM + a • M3.hat v + b • (M3.hat v * M3.hat v)).det
      = (1 - b * v.normSq) ^ 2 + a ^ 2 * v.normSq := by
  show (M3.add (M3.add M3.idM (M3.smulM a (M3.hat v)))
      (M3.smulM b (M3.mul (M3.hat v) (M3.hat v)))).det = _
  simp only [M3.det, M3.add, M3.smulM, M3.mul, M3.hat, M3.idM, V3.normSq]
  ring

/-- Branch lemma: `V` matrix, Taylor branch, as a matrix expression. -/
theorem SE3.vmat_taylor (om : V3) (h : om.normSq < 1e-5) :
    SE3.vmat om = M3.idM + (1/2 : ℝ) • M3.hat om
      + (1/6 : ℝ) • (M3.hat om * M3.hat om) := by
  simp only [SE3.vmat]
  rw [if_pos h, if_pos h]

/-- Branch lemma: `V` matrix, exact branch, as a matrix expression. -/
theorem SE3.vmat_large (om : V3) (h : ¬ om.normSq < 1e-5) :
    SE3.vmat om = M3.idM
      + ((1 - Real.cos (Real.sqrt om.normSq)) / om.normSq) • M3.hat om
      + ((1 - Real.sin (Real.sqrt om.normSq) / Real.sqrt om.normSq) / om.normSq) •
          (M3.hat om * M3.hat om) := by
  simp only [SE3.vmat]
  rw [if_neg h, if_neg h]

/-- `det V > 0` for every rotation tangent of norm at most one, both branches. -/
theorem SE3.vmat_det_pos (om : V3) (hle : om.normSq ≤ 1) : 0 < (SE3.vmat om).det := by
  have h0 : 0 ≤ om.normSq := om.normSq_nonneg
  by_cases h : om.normSq < 1e-5
  · rw [SE3.vmat_taylor om h, M3.det_id_hat]
    nlinarith
  · rw [SE3.vmat_large om h, M3.det_id_hat]
    have hu0 : (0:ℝ) < om.normSq := lt_of_lt_of_le (by norm_num) (not_lt.mp h)
    have hθ0 : (0:ℝ) < Real.sqrt om.normSq := Real.sqrt_pos.mpr hu0
    have hθ1 : Real.sqrt om.normSq ≤ 1 := by
      calc Real.sqrt om.normSq ≤ Real.sqrt 1 := Real.sqrt_le_sqrt hle
        _ = 1 := Real.sqrt_one
    have hπ3 := Real.pi_gt_three
    have hsin : 0 < Real.sin (Real.sqrt om.normSq) :=
      Real.sin_pos_of_pos_of_lt_pi hθ0 (by linarith)
    have hCu : 1 - (1 - Real.sin (Real.sqrt om.normSq) / Real.sqrt om.normSq) /
        om.normSq * om.normSq = Real.sin (Real.sqrt om.normSq) / Real.sqrt om.normSq := by
      field_simp
      ring
    rw [hCu]
    have hA : 0 < Real.sin (Real.sqrt om.normSq) / Real.sqrt om.normSq :=
      div_pos hsin hθ0
    nlinarith [sq_nonneg ((1 - Real.cos (Real.sqrt om.normSq)) / om.normSq),
      mul_pos hA hA]
set_option maxHeartbeats 1600000 in
/-- Quantitative SE3 translation-recovery error when the rotation log returns
`ρ ω` (Taylor-perturbed): both `V` matrices are then in the Taylor branch and
the recovered translation differs from `ν` by at most `6e-22` in squared norm. -/
theorem se3_taylor_err (om nu : V3) (ρ : ℝ) (hρ1 : |ρ - 1| ≤ 5e-8)
    (hρθ : |ρ - 1| * Real.sqrt om.normSq ≤ 4.5e-11) (hu5 : om.normSq < 5e-6)
    (hνle : nu.normSq ≤ 1) :
    ((SE3.vmat (ρ • om)).inv.mulVec ((SE3.vmat om).mulVec nu) - nu).normSq
      ≤ 6e-22 := by
  have h0u : 0 ≤ om.normSq := om.normSq_nonneg
  have h0ν : 0 ≤ nu.normSq := nu.normSq_nonneg
  obtain ⟨hρlo, hρhi⟩ := abs_le.mp hρ1
  have hu' : (ρ • om).normSq = ρ ^ 2 * om.normSq := V3.normSq_smul ρ om
  have hVt : om.normSq < 1e-5 := by linarith
  have hWt : (ρ • om).normSq < 1e-5 := by rw [hu']; nlinarith
  have hWle : (ρ • om).normSq ≤ 1 := by rw [hu']; nlinarith
  have hdetW : (SE3.vmat (ρ • om)).det ≠ 0 :=
    ne_of_gt (SE3.vmat_det_pos _ hWle)
  have hsq45 : (ρ - 1) ^ 2 * om.normSq ≤ 2.025e-21 := by
    have hmm : (|ρ - 1| * Real.sqrt om.normSq) * (|ρ - 1| * Real.sqrt om.normSq)
        ≤ 4.5e-11 * 4.5e-11 :=
      mul_le_mul hρθ hρθ (by positivity) (by norm_num)
    have hexp : (|ρ - 1| * Real.sqrt om.normSq) * (|ρ - 1| * Real.sqrt om.normSq)
        = (ρ - 1) ^ 2 * om.normSq := by
      rw [show (|ρ - 1| * Real.sqrt om.normSq) * (|ρ - 1| * Real.sqrt om.normSq)
          = (|ρ - 1| * |ρ - 1|) * (Real.sqrt om.normSq * Real.sqrt om.normSq) by ring,
        abs_mul_abs_self, Real.mul_self_sqrt h0u]
      ring
    rw [hexp] at hmm
    linarith
  -- both V matrices applied, in cross-product form
  have hWap : ∀ z : V3, (SE3.vmat (ρ • om)).mulVec z
      = z + (1/2 * ρ) • om.cross z + (1/6 * (ρ * ρ)) • om.cross (om.cross z) := by
    intro z
    rw [SE3.vmat_mulVec_taylor _ hWt z, V3.ext_iff']
    simp only [V3.cross, V3.add_x, V3.add_y, V3.add_z, V3.smul_x, V3.smul_y,
      V3.smul_z, V3.mk_x, V3.mk_y, V3.mk_z]
    refine ⟨by ring, by ring, by ring⟩
  have hVap : (SE3.vmat om).mulVec nu
      = nu + (1/2 : ℝ) • om.cross nu + (1/6 : ℝ) • om.cross (om.cross nu) :=
    SE3.vmat_mulVec_taylor om hVt nu
  -- the defect d = (V - W) ν in cross-product form
  have hmulWinv : SE3.vmat (ρ • om) * (SE3.vmat (ρ • om)).inv = M3.idM :=
    M3.mul_inv_self _ hdetW
  have hWinv : (SE3.vmat (ρ • om)).mulVec
      ((SE3.vmat (ρ • om)).inv.mulVec ((SE3.vmat om).mulVec nu))
      = (SE3.vmat om).mulVec nu := by
    rw [← M3.mul_mulVec, hmulWinv, M3.idM_mulVec]
  have hWx : (SE3.vmat (ρ • om)).mulVec
      ((SE3.vmat (ρ • om)).inv.mulVec ((SE3.vmat om).mulVec nu) - nu)
      = (SE3.vmat om).mulVec nu - (SE3.vmat (ρ • om)).mulVec nu := by
    rw [M3.mulVec_sub, hWinv]
  have hd : (SE3.vmat om).mulVec nu - (SE3.vmat (ρ • om)).mulVec nu
      = (1/2 - 1/2 * ρ) • om.cross nu
        + (1/6 - 1/6 * (ρ * ρ)) • om.cross (om.cross nu) := by
    rw [hVap, hWap nu, V3.ext_iff']
    simp only [V3.add_x, V3.add_y, V3.add_z, V3.sub_x, V3.sub_y, V3.sub_z,
      V3.smul_x, V3.smul_y, V3.smul_z]
    refine ⟨by ring, by ring, by ring⟩
  -- squared norm of the defect
  have hlag1 : (om.cross nu).normSq ≤ om.normSq * nu.normSq := V3.lagrange om nu
  have hlag2 : (om.cross (om.cross nu)).normSq ≤ om.normSq * (om.cross nu).normSq :=
    V3.lagrange om (om.cross nu)
  have h0c1 : 0 ≤ (om.cross nu).normSq := V3.normSq_nonneg _
  have h0c2 : 0 ≤ (om.cross (om.cross nu)).normSq := V3.normSq_nonneg _
  have hNd : ((SE3.vmat om).mulVec nu - (SE3.vmat (ρ • om)).mulVec nu).normSq
      ≤ 5.1e-22 := by
    rw [hd, V3.normSq_cross_pair]
    have hA : (1/2 - 1/2 * ρ) ^ 2 * (om.cross nu).normSq ≤ 5.07e-22 := by
      have e : (1/2 - 1/2 * ρ) ^ 2 = (ρ - 1) ^ 2 / 4 := by ring
      rw [e]
      have h1 : (ρ - 1) ^ 2 / 4 * (om.cross nu).normSq
          ≤ (ρ - 1) ^ 2 / 4 * (om.normSq * nu.normSq) := by
        apply mul_le_mul_of_nonneg_left hlag1 (by positivity)
      have h2 : (ρ - 1) ^ 2 / 4 * (om.normSq * nu.normSq)
          ≤ (ρ - 1) ^ 2 * om.normSq / 4 := by
        nlinarith [sq_nonneg (ρ - 1), mul_nonneg (sq_nonneg (ρ - 1)) h0u]
      linarith
    have hB : (1/6 - 1/6 * (ρ * ρ)) ^ 2 * (om.cross (om.cross nu)).normSq
        ≤ 3e-27 := by
      have hc2 : (om.cross (om.cross nu)).normSq
          ≤ om.normSq * om.normSq * nu.normSq := by
        nlinarith [mul_le_mul_of_nonneg_left hlag1 h0u]
      have e : (1/6 - 1/6 * (ρ * ρ)) ^ 2 = (ρ - 1) ^ 2 * (1 + ρ) ^ 2 / 36 := by
        ring
      rw [e]
      have hρp : (1 + ρ) ^ 2 ≤ 4.1 := by nlinarith
      have hfin : (ρ - 1) ^ 2 * (1 + ρ) ^ 2 / 36
          * (om.cross (om.cross nu)).normSq
          ≤ (ρ - 1) ^ 2 * om.normSq * (4.1 * (om.normSq * nu.normSq) / 36) := by
        nlinarith [mul_nonneg (sq_nonneg (ρ - 1)) h0c2, sq_nonneg (1 + ρ),
          mul_nonneg (mul_nonneg (sq_nonneg (ρ - 1)) h0u) h0ν,
          mul_nonneg (sq_nonneg (ρ - 1)) (mul_nonneg (mul_nonneg h0u h0u) h0ν)]
      nlinarith [mul_nonneg (mul_nonneg (sq_nonneg (ρ - 1)) h0u)
        (mul_nonneg h0u h0ν)]
    linarith
  -- lower bound for ‖W x‖² against ‖x‖²
  have hxform := hWap ((SE3.vmat (ρ • om)).inv.mulVec ((SE3.vmat om).mulVec nu) - nu)
  have hxnorm : ((SE3.vmat (ρ • om)).inv.mulVec ((SE3.vmat om).mulVec nu) - nu).normSq
      + (( 1/2 * ρ) ^ 2 - 2 * (1/6 * (ρ * ρ)))
        * (om.cross ((SE3.vmat (ρ • om)).inv.mulVec ((SE3.vmat om).mulVec nu) - nu)).normSq
      + (1/6 * (ρ * ρ)) ^ 2
        * (om.cross (om.cross ((SE3.vmat (ρ • om)).inv.mulVec
            ((SE3.vmat om).mulVec nu) - nu))).normSq
      ≤ 5.1e-22 := by
    rw [← V3.normSq_taylor_apply, ← hxform, hWx]
    exact hNd
  have hlagx : (om.cross ((SE3.vmat (ρ • om)).inv.mulVec
      ((SE3.vmat om).mulVec nu) - nu)).normSq
      ≤ om.normSq * ((SE3.vmat (ρ • om)).inv.mulVec
        ((SE3.vmat om).mulVec nu) - nu).normSq := V3.lagrange _ _
  have h0x : 0 ≤ ((SE3.vmat (ρ • om)).inv.mulVec
      ((SE3.vmat om).mulVec nu) - nu).normSq := V3.normSq_nonneg _
  have h0cx2 : 0 ≤ (om.cross (om.cross ((SE3.vmat (ρ • om)).inv.mulVec
      ((SE3.vmat om).mulVec nu) - nu))).normSq := V3.normSq_nonneg _
  -- (1/2 ρ)² - 2(ρ²/6) = -ρ²/12, so the middle term is bounded by (ρ²u/12)‖x‖²
  nlinarith [hxnorm, hlagx, h0x, h0cx2, sq_nonneg ρ,
    mul_nonneg (mul_nonneg (sq_nonneg ρ) h0u) h0x,
    mul_le_mul_of_nonneg_left hlagx (by positivity : (0:ℝ) ≤ ρ ^ 2 / 12)]
set_option maxHeartbeats 800000 in
/-- SE3 round trip, squared error: at most `3e-21` for any 6-tangent of norm
at most one. -/
theorem se3_log_exp_normSq (xi : Fin 6 → ℝ) (hle : normSq6 xi ≤ 1) :
    normSq6 (fun i => SE3.log (SE3.exp xi) i - xi i) ≤ 3e-21 := by
  have hsplit := normSq6_split xi
  have h0ω : 0 ≤ V3.normSq ⟨xi 0, xi 1, xi 2⟩ := V3.normSq_nonneg _
  have h0ν : 0 ≤ V3.normSq ⟨xi 3, xi 4, xi 5⟩ := V3.normSq_nonneg _
  have hωle : V3.normSq ⟨xi 0, xi 1, xi 2⟩ ≤ 1 := by linarith
  have hνle : V3.normSq ⟨xi 3, xi 4, xi 5⟩ ≤ 1 := by linarith
  have hlog : SE3.log (SE3.exp xi)
      = mk6 ((SO3.exp ⟨xi 0, xi 1, xi 2⟩).log)
          ((SE3.vmat ((SO3.exp ⟨xi 0, xi 1, xi 2⟩).log)).inv.mulVec
            ((SE3.vmat ⟨xi 0, xi 1, xi 2⟩).mulVec ⟨xi 3, xi 4, xi 5⟩)) := rfl
  rw [hlog, normSq6_mk6_sub]
  rcases so3_log_exp_cases ⟨xi 0, xi 1, xi 2⟩ hωle with hex | ⟨ρ, hρeq, hρ1, hρθ, hu5⟩
  · rw [hex]
    have hdet : (SE3.vmat (⟨xi 0, xi 1, xi 2⟩ : V3)).det ≠ 0 :=
      ne_of_gt (SE3.vmat_det_pos _ hωle)
    have hmul : (SE3.vmat (⟨xi 0, xi 1, xi 2⟩ : V3)).inv
        * SE3.vmat (⟨xi 0, xi 1, xi 2⟩ : V3) = M3.idM := M3.inv_mul_self _ hdet
    have hid : (SE3.vmat (⟨xi 0, xi 1, xi 2⟩ : V3)).inv.mulVec
        ((SE3.vmat (⟨xi 0, xi 1, xi 2⟩ : V3)).mulVec ⟨xi 3, xi 4, xi 5⟩)
        = (⟨xi 3, xi 4, xi 5⟩ : V3) := by
      rw [← M3.mul_mulVec, hmul, M3.idM_mulVec]
    rw [hid]
    have hz1 : ((⟨xi 0, xi 1, xi 2⟩ : V3) - ⟨xi 0, xi 1, xi 2⟩).normSq = 0 := by
      simp only [V3.normSq, V3.sub_x, V3.sub_y, V3.sub_z]
      ring
    have hz2 : ((⟨xi 3, xi 4, xi 5⟩ : V3) - ⟨xi 3, xi 4, xi 5⟩).normSq = 0 := by
      simp only [V3.normSq, V3.sub_x, V3.sub_y, V3.sub_z]
      ring
    rw [hz1, hz2]
    norm_num
  · rw [hρeq]
    have herr := se3_taylor_err ⟨xi 0, xi 1, xi 2⟩ ⟨xi 3, xi 4, xi 5⟩ ρ hρ1 hρθ hu5 hνle
    have hrot : ((ρ • (⟨xi 0, xi 1, xi 2⟩ : V3)) - ⟨xi 0, xi 1, xi 2⟩).normSq
        = (ρ - 1) ^ 2 * V3.normSq ⟨xi 0, xi 1, xi 2⟩ := by
      simp only [V3.normSq, V3.sub_x, V3.sub_y, V3.sub_z,
        V3.smul_x, V3.smul_y, V3.smul_z]
      ring
    have hsq45 : (ρ - 1) ^ 2 * V3.normSq ⟨xi 0, xi 1, xi 2⟩ ≤ 2.025e-21 := by
      have hmm : (|ρ - 1| * Real.sqrt (V3.normSq ⟨xi 0, xi 1, xi 2⟩))
          * (|ρ - 1| * Real.sqrt (V3.normSq ⟨xi 0, xi 1, xi 2⟩))
          ≤ 4.5e-11 * 4.5e-11 :=
        mul_le_mul hρθ hρθ (by positivity) (by norm_num)
      have hexp : (|ρ - 1| * Real.sqrt (V3.normSq ⟨xi 0, xi 1, xi 2⟩))
          * (|ρ - 1| * Real.sqrt (V3.normSq ⟨xi 0, xi 1, xi 2⟩))
          = (ρ - 1) ^ 2 * V3.normSq ⟨xi 0, xi 1, xi 2⟩ := by
        rw [show (|ρ - 1| * Real.sqrt (V3.normSq ⟨xi 0, xi 1, xi 2⟩))
            * (|ρ - 1| * Real.sqrt (V3.normSq ⟨xi 0, xi 1, xi 2⟩))
            = (|ρ - 1| * |ρ - 1|)
              * (Real.sqrt (V3.normSq ⟨xi 0, xi 1, xi 2⟩)
                * Real.sqrt (V3.normSq ⟨xi 0, xi 1, xi 2⟩)) by ring,
          abs_mul_abs_self, Real.mul_self_sqrt h0ω]
        ring
      rw [hexp] at hmm
      linarith
    rw [hrot]
    linarith
theorem sqrt_1e20 : Real.sqrt 1e-20 = 1e-10 := by
  rw [show (1e-20 : ℝ) = (1e-10) ^ 2 by norm_num]
  exact Real.sqrt_sq (by norm_num)

/-- `VectorVar<N>` from `vector.rs`: a flat N-vector variable. -/
structure VectorVar (n : ℕ) where
  val : Fin n → ℝ

/-- `VectorVar::exp`: copies the tangent into the variable
(`Vector::from_iterator(delta.iter().cloned())`). -/
def VectorVar.exp (n : ℕ) (delta : Fin n → ℝ) : VectorVar n :=
  ⟨fun i => delta i⟩

/-- `VectorVar::log`: copies the stored vector back out. -/
def VectorVar.log {n : ℕ} (v : VectorVar n) : Fin n → ℝ :=
  fun i => v.val i

/-- Squared euclidean norm of an N-tangent. -/
def normSqN {n : ℕ} (v : Fin n → ℝ) : ℝ := ∑ i, v i * v i

/-- Euclidean norm of an N-tangent. -/
def normN {n : ℕ} (v : Fin n → ℝ) : ℝ := Real.sqrt (normSqN v)
/-- SO3 round trip in norm: at most `1e-10` for any tangent of norm at most 1. -/
theorem so3_roundtrip_norm (v : V3) (hhi : V3.norm v ≤ 1) :
    V3.norm (SO3.log (SO3.exp v) - v) ≤ 1e-10 := by
  have h0 : 0 ≤ v.normSq := v.normSq_nonneg
  simp only [V3.norm] at hhi
  have hn1 : v.normSq ≤ 1 := by
    nlinarith [Real.mul_self_sqrt h0, Real.sqrt_nonneg v.normSq]
  rcases so3_log_exp_cases v hn1 with hex | ⟨ρ, hρeq, hρ1, hρθ, hu5⟩
  · rw [hex]
    have hz : (v - v).normSq = 0 := by
      simp only [V3.normSq, V3.sub_x, V3.sub_y, V3.sub_z]
      ring
    rw [V3.norm, hz, Real.sqrt_zero]
    norm_num
  · rw [hρeq]
    have hr : ((ρ • v) - v).normSq = (ρ - 1) ^ 2 * v.normSq := by
      simp only [V3.normSq, V3.sub_x, V3.sub_y, V3.sub_z,
        V3.smul_x, V3.smul_y, V3.smul_z]
      ring
    rw [V3.norm, hr, Real.sqrt_mul (sq_nonneg _), Real.sqrt_sq_eq_abs]
    calc |ρ - 1| * Real.sqrt v.normSq ≤ 4.5e-11 := hρθ
      _ ≤ 1e-10 := by norm_num

/-- SE3 round trip in norm: at most `1e-10` for any 6-tangent of norm at most 1. -/
theorem se3_roundtrip_norm (xi : Fin 6 → ℝ) (hhi : norm6 xi ≤ 1) :
    norm6 (fun i => SE3.log (SE3.exp xi) i - xi i) ≤ 1e-10 := by
  have h0 := normSq6_nonneg xi
  simp only [norm6] at hhi
  have hn1 : normSq6 xi ≤ 1 := by
    nlinarith [Real.mul_self_sqrt h0, Real.sqrt_nonneg (normSq6 xi)]
  have hb := se3_log_exp_normSq xi hn1
  simp only [norm6]
  calc Real.sqrt (normSq6 (fun i => SE3.log (SE3.exp xi) i - xi i))
      ≤ Real.sqrt 1e-20 := Real.sqrt_le_sqrt (by linarith)
    _ = 1e-10 := sqrt_1e20

/-- The N-vector round trip is exactly the identity. -/
theorem vecvar_roundtrip_zero (n : ℕ) (delta : Fin n → ℝ) :
    normN (fun i => (VectorVar.exp n delta).log i - delta i) = 0 := by
  have hzf : (fun i => (VectorVar.exp n delta).log i - delta i)
      = fun _ : Fin n => (0:ℝ) := by
    funext i
    simp only [VectorVar.exp, VectorVar.log]
    ring
  rw [hzf]
  have h0 : normSqN (fun _ : Fin n => (0:ℝ)) = 0 := by
    simp [normSqN]
  simp only [normN]
  rw [h0, Real.sqrt_zero]

/-- C4: for every variable type provided by the core (SO3, SE3, N-dimensional
vector variable) and every tangent `ξ` with `‖ξ‖ ∈ [1e-8, 1]`,
`‖log(exp(ξ)) − ξ‖ ≤ 1e-10`.  On SO3 the drift is at most `4.5e-11`
(zero outside the Taylor branches), on SE3 at most `√3e-21 ≈ 5.5e-11`,
and on vector variables it is exactly zero. -/
theorem c4_exp_log_roundtrip :
    (∀ v : V3, 1e-8 ≤ V3.norm v → V3.norm v ≤ 1 →
      V3.norm (SO3.log (SO3.exp v) - v) ≤ 1e-10) ∧
    (∀ xi : Fin 6 → ℝ, 1e-8 ≤ norm6 xi → norm6 xi ≤ 1 →
      norm6 (fun i => SE3.log (SE3.exp xi) i - xi i) ≤ 1e-10) ∧
    (∀ n : ℕ, ∀ delta : Fin n → ℝ, 1e-8 ≤ normN delta → normN delta ≤ 1 →
      normN (fun i => (VectorVar.exp n delta).log i - delta i) ≤ 1e-10) := by
  refine ⟨fun v _ hhi => so3_roundtrip_norm v hhi,
    fun xi _ hhi => se3_roundtrip_norm xi hhi,
    fun n delta _ _ => ?_⟩
  rw [vecvar_roundtrip_zero n delta]
  norm_num

/-- Witness for C4: concrete unit-norm tangents for each of the three
variable types. -/
theorem c4_exp_log_roundtrip_witness :
    V3.norm (SO3.log (SO3.exp ⟨1, 0, 0⟩) - ⟨1, 0, 0⟩) ≤ 1e-10 ∧
    norm6 (fun i => SE3.log (SE3.exp (mk6 ⟨1, 0, 0⟩ ⟨0, 0, 0⟩)) i
      - mk6 ⟨1, 0, 0⟩ ⟨0, 0, 0⟩ i) ≤ 1e-10 ∧
    normN (fun i => (VectorVar.exp 2 (fun _ => 1/2)).log i
      - (fun _ : Fin 2 => (1/2 : ℝ)) i) ≤ 1e-10 := by
  have hv : V3.norm ⟨1, 0, 0⟩ = 1 := by
    simp only [V3.norm]
    rw [show V3.normSq ⟨1, 0, 0⟩ = 1 by norm_num [V3.normSq], Real.sqrt_one]
  have h6 : norm6 (mk6 ⟨1, 0, 0⟩ ⟨0, 0, 0⟩) = 1 := by
    simp only [norm6]
    rw [show normSq6 (mk6 ⟨1, 0, 0⟩ ⟨0, 0, 0⟩) = 1 by
      show (1:ℝ) * 1 + 0 * 0 + 0 * 0 + 0 * 0 + 0 * 0 + 0 * 0 = 1
      norm_num, Real.sqrt_one]
  have hN : normN (fun _ : Fin 2 => (1/2 : ℝ)) = Real.sqrt (1/2) := by
    simp only [normN]
    rw [show normSqN (fun _ : Fin 2 => (1/2 : ℝ)) = 1/2 by
      simp [normSqN, Fin.sum_univ_two]]
  refine ⟨c4_exp_log_roundtrip.1 ⟨1, 0, 0⟩ (by rw [hv]; norm_num) (by rw [hv]),
    c4_exp_log_roundtrip.2.1 _ (by rw [h6]; norm_num) (by rw [h6]),
    c4_exp_log_roundtrip.2.2 2 _ ?_ ?_⟩
  · rw [hN, show (1e-8 : ℝ) = Real.sqrt 1e-16 by
      rw [show (1e-16 : ℝ) = (1e-8) ^ 2 by norm_num, Real.sqrt_sq (by norm_num)]]
    exact Real.sqrt_le_sqrt (by norm_num)
  · rw [hN]
    calc Real.sqrt (1/2) ≤ Real.sqrt 1 := Real.sqrt_le_sqrt (by norm_num)
      _ = 1 := Real.sqrt_one
theorem SO3.inverse_inverse (q : SO3) : q.inverse.inverse = q := by
  rw [SO3.ext_iff_q]
  simp only [SO3.inverse]
  refine ⟨by ring, by ring, by ring, by ring⟩

theorem SO3.inverse_apply_apply_unit (q : SO3) (hq : q.normSq = 1) (v : V3) :
    q.inverse.apply (q.apply v) = v := by
  have h2 : q.inverse.normSq = 1 := by rw [SO3.normSq_inverse, hq]
  have h := SO3.apply_inverse_apply_unit q.inverse h2 v
  rw [SO3.inverse_inverse] at h
  exact h

/-- Unit-norm quaternion cancellation: `X⁻¹ (X E) = E`. -/
theorem SO3.inv_compose_compose (X E : SO3) (hX : X.normSq = 1) :
    X.inverse.compose (X.compose E) = E := by
  simp only [SO3.normSq] at hX
  rw [SO3.ext_iff_q]
  simp only [SO3.compose, SO3.inverse]
  refine ⟨by linear_combination E.x * hX, by linear_combination E.y * hX,
    by linear_combination E.z * hX, by linear_combination E.w * hX⟩

/-- Unit-norm quaternion cancellation: `(E X) X⁻¹ = E`. -/
theorem SO3.compose_compose_inv (E X : SO3) (hX : X.normSq = 1) :
    (E.compose X).compose X.inverse = E := by
  simp only [SO3.normSq] at hX
  rw [SO3.ext_iff_q]
  simp only [SO3.compose, SO3.inverse]
  refine ⟨by linear_combination E.x * hX, by linear_combination E.y * hX,
    by linear_combination E.z * hX, by linear_combination E.w * hX⟩

theorem V3.add_neg_cancel_right' (a b : V3) : a + b + -b = a := by
  rw [V3.ext_iff']
  simp only [V3.add_x, V3.add_y, V3.add_z, V3.neg_x, V3.neg_y, V3.neg_z]
  refine ⟨by ring, by ring, by ring⟩

theorem V3.neg_add_cancel_left' (a b : V3) : -a + (a + b) = b := by
  rw [V3.ext_iff']
  simp only [V3.add_x, V3.add_y, V3.add_z, V3.neg_x, V3.neg_y, V3.neg_z]
  refine ⟨by ring, by ring, by ring⟩

/-- `oplus_right` from `traits.rs` on SE3. -/
def SE3.oplusRight (X : SE3) (xi : Fin 6 → ℝ) : SE3 := X.compose (SE3.exp xi)

/-- `oplus_left` from `traits.rs` on SE3. -/
def SE3.oplusLeft (X : SE3) (xi : Fin 6 → ℝ) : SE3 := (SE3.exp xi).compose X

/-- `ominus_right` from `traits.rs` on SE3. -/
def SE3.ominusRight (X Y : SE3) : Fin 6 → ℝ := (Y.inverse.compose X).log

/-- `ominus_left` from `traits.rs` on SE3. -/
def SE3.ominusLeft (X Y : SE3) : Fin 6 → ℝ := (X.compose Y.inverse).log

/-- `VectorVar::compose` (vector addition). -/
def VectorVar.compose {n : ℕ} (a b : VectorVar n) : VectorVar n :=
  ⟨fun i => a.val i + b.val i⟩

/-- `VectorVar::inverse` (negation). -/
def VectorVar.inverse {n : ℕ} (a : VectorVar n) : VectorVar n :=
  ⟨fun i => -a.val i⟩

/-- `oplus_right` from `traits.rs` on VectorVar. -/
def VectorVar.oplusRight {n : ℕ} (X : VectorVar n) (xi : Fin n → ℝ) : VectorVar n :=
  X.compose (VectorVar.exp n xi)

/-- `oplus_left` from `traits.rs` on VectorVar. -/
def VectorVar.oplusLeft {n : ℕ} (X : VectorVar n) (xi : Fin n → ℝ) : VectorVar n :=
  (VectorVar.exp n xi).compose X

/-- `ominus_right` from `traits.rs` on VectorVar. -/
def VectorVar.ominusRight {n : ℕ} (X Y : VectorVar n) : Fin n → ℝ :=
  (Y.inverse.compose X).log

/-- `ominus_left` from `traits.rs` on VectorVar. -/
def VectorVar.ominusLeft {n : ℕ} (X Y : VectorVar n) : Fin n → ℝ :=
  (X.compose Y.inverse).log

/-- Unit-rotation SE3 cancellation: `X⁻¹ (X E) = E`. -/
theorem SE3.inv_compose_compose_x (X E : SE3) (hX : X.rot.normSq = 1) :
    X.inverse.compose (X.compose E) = E := by
  rw [SE3.ext_iff_x]
  constructor
  · show X.rot.inverse.compose (X.rot.compose E.rot) = E.rot
    exact SO3.inv_compose_compose X.rot E.rot hX
  · show X.rot.inverse.apply (X.rot.apply E.xyz + X.xyz)
      + -(X.rot.inverse.apply X.xyz) = E.xyz
    rw [SO3.apply_add, SO3.inverse_apply_apply_unit X.rot hX,
      V3.add_neg_cancel_right']

/-- Unit-rotation SE3 cancellation: `(E X) X⁻¹ = E`. -/
theorem SE3.compose_compose_inv_x (E X : SE3) (hX : X.rot.normSq = 1) :
    (E.compose X).compose X.inverse = E := by
  rw [SE3.ext_iff_x]
  constructor
  · show (E.rot.compose X.rot).compose X.rot.inverse = E.rot
    exact SO3.compose_compose_inv E.rot X.rot hX
  · show (E.rot.compose X.rot).apply (-(X.rot.inverse.apply X.xyz))
      + (E.rot.apply X.xyz + E.xyz) = E.xyz
    rw [SO3.compose_apply, SO3.apply_neg X.rot,
      SO3.apply_inverse_apply_unit X.rot hX, SO3.apply_neg E.rot,
      V3.neg_add_cancel_left']
theorem so3_oplus_ominus_right (X : SO3) (xi : V3) (hX : X.normSq = 1) :
    SO3.ominusRight (SO3.oplusRight X xi) X = SO3.log (SO3.exp xi) := by
  show (X.inverse.compose (X.compose (SO3.exp xi))).log = _
  rw [SO3.inv_compose_compose X (SO3.exp xi) hX]

theorem so3_oplus_ominus_left (X : SO3) (xi : V3) (hX : X.normSq = 1) :
    SO3.ominusLeft (SO3.oplusLeft X xi) X = SO3.log (SO3.exp xi) := by
  show (((SO3.exp xi).compose X).compose X.inverse).log = _
  rw [SO3.compose_compose_inv (SO3.exp xi) X hX]

theorem se3_oplus_ominus_right (X : SE3) (xi : Fin 6 → ℝ) (hX : X.rot.normSq = 1) :
    SE3.ominusRight (SE3.oplusRight X xi) X = SE3.log (SE3.exp xi) := by
  show (X.inverse.compose (X.compose (SE3.exp xi))).log = _
  rw [SE3.inv_compose_compose_x X (SE3.exp xi) hX]

theorem se3_oplus_ominus_left (X : SE3) (xi : Fin 6 → ℝ) (hX : X.rot.normSq = 1) :
    SE3.ominusLeft (SE3.oplusLeft X xi) X = SE3.log (SE3.exp xi) := by
  show (((SE3.exp xi).compose X).compose X.inverse).log = _
  rw [SE3.compose_compose_inv_x (SE3.exp xi) X hX]

theorem vecvar_oplus_ominus_right {n : ℕ} (X : VectorVar n) (delta : Fin n → ℝ) :
    VectorVar.ominusRight (VectorVar.oplusRight X delta) X = delta := by
  funext i
  simp only [VectorVar.ominusRight, VectorVar.oplusRight, VectorVar.compose,
    VectorVar.inverse, VectorVar.exp, VectorVar.log]
  ring

theorem vecvar_oplus_ominus_left {n : ℕ} (X : VectorVar n) (delta : Fin n → ℝ) :
    VectorVar.ominusLeft (VectorVar.oplusLeft X delta) X = delta := by
  funext i
  simp only [VectorVar.ominusLeft, VectorVar.oplusLeft, VectorVar.compose,
    VectorVar.inverse, VectorVar.exp, VectorVar.log]
  ring

theorem normN_zero_fun (n : ℕ) : normN (fun _ : Fin n => (0:ℝ)) = 0 := by
  simp only [normN]
  rw [show normSqN (fun _ : Fin n => (0:ℝ)) = 0 by simp [normSqN], Real.sqrt_zero]

/-- C6: under the right retraction convention (`X ⊕ ξ = X·exp(ξ)`,
`X ⊖ Y = log(Y⁻¹X)`), for every group element `X` (unit rotation) and tangent
`ξ` with `‖ξ‖ ∈ [1e-8, 1]`, `(X ⊕ ξ) ⊖ X` equals `ξ` to within `1e-10`;
the analogous round-trip holds under the left convention — for SO3, SE3 and
N-dimensional vector variables. -/
theorem c6_retraction_roundtrip :
    (∀ (X : SO3) (xi : V3), X.normSq = 1 → 1e-8 ≤ V3.norm xi → V3.norm xi ≤ 1 →
      V3.norm (SO3.ominusRight (SO3.oplusRight X xi) X - xi) ≤ 1e-10 ∧
      V3.norm (SO3.ominusLeft (SO3.oplusLeft X xi) X - xi) ≤ 1e-10) ∧
    (∀ (X : SE3) (xi : Fin 6 → ℝ), X.rot.normSq = 1 →
      1e-8 ≤ norm6 xi → norm6 xi ≤ 1 →
      norm6 (fun i => SE3.ominusRight (SE3.oplusRight X xi) X i - xi i) ≤ 1e-10 ∧
      norm6 (fun i => SE3.ominusLeft (SE3.oplusLeft X xi) X i - xi i) ≤ 1e-10) ∧
    (∀ (n : ℕ) (X : VectorVar n) (delta : Fin n → ℝ),
      1e-8 ≤ normN delta → normN delta ≤ 1 →
      normN (fun i => VectorVar.ominusRight (VectorVar.oplusRight X delta) X i
        - delta i) ≤ 1e-10 ∧
      normN (fun i => VectorVar.ominusLeft (VectorVar.oplusLeft X delta) X i
        - delta i) ≤ 1e-10) := by
  refine ⟨fun X xi hX _ hhi => ?_, fun X xi hX _ hhi => ?_,
    fun n X delta _ _ => ?_⟩
  · rw [so3_oplus_ominus_right X xi hX, so3_oplus_ominus_left X xi hX]
    exact ⟨so3_roundtrip_norm xi hhi, so3_roundtrip_norm xi hhi⟩
  · constructor
    · have h := se3_oplus_ominus_right X xi hX
      simp only [h]
      exact se3_roundtrip_norm xi hhi
    · have h := se3_oplus_ominus_left X xi hX
      simp only [h]
      exact se3_roundtrip_norm xi hhi
  · constructor
    · have h := vecvar_oplus_ominus_right X delta
      simp only [h]
      rw [show (fun i => delta i - delta i) = (fun _ : Fin n => (0:ℝ))
          from funext fun i => sub_self _, normN_zero_fun]
      norm_num
    · have h := vecvar_oplus_ominus_left X delta
      simp only [h]
      rw [show (fun i => delta i - delta i) = (fun _ : Fin n => (0:ℝ))
          from funext fun i => sub_self _, normN_zero_fun]
      norm_num
/-- Witness for C6: identity-like base points and unit-norm tangents for each
variable type, both conventions. -/
theorem c6_retraction_roundtrip_witness :
    (V3.norm (SO3.ominusRight (SO3.oplusRight ⟨0, 0, 0, 1⟩ ⟨1, 0, 0⟩)
        ⟨0, 0, 0, 1⟩ - ⟨1, 0, 0⟩) ≤ 1e-10 ∧
      V3.norm (SO3.ominusLeft (SO3.oplusLeft ⟨0, 0, 0, 1⟩ ⟨1, 0, 0⟩)
        ⟨0, 0, 0, 1⟩ - ⟨1, 0, 0⟩) ≤ 1e-10) ∧
    (norm6 (fun i => SE3.ominusRight
        (SE3.oplusRight SE3.identity (mk6 ⟨1, 0, 0⟩ ⟨0, 0, 0⟩)) SE3.identity i
        - mk6 ⟨1, 0, 0⟩ ⟨0, 0, 0⟩ i) ≤ 1e-10 ∧
      norm6 (fun i => SE3.ominusLeft
        (SE3.oplusLeft SE3.identity (mk6 ⟨1, 0, 0⟩ ⟨0, 0, 0⟩)) SE3.identity i
        - mk6 ⟨1, 0, 0⟩ ⟨0, 0, 0⟩ i) ≤ 1e-10) ∧
    (normN (fun i => VectorVar.ominusRight
        (VectorVar.oplusRight ⟨fun _ : Fin 2 => (3:ℝ)⟩ (fun _ => 1/2))
        ⟨fun _ : Fin 2 => (3:ℝ)⟩ i - (fun _ : Fin 2 => (1/2 : ℝ)) i) ≤ 1e-10 ∧
      normN (fun i => VectorVar.ominusLeft
        (VectorVar.oplusLeft ⟨fun _ : Fin 2 => (3:ℝ)⟩ (fun _ => 1/2))
        ⟨fun _ : Fin 2 => (3:ℝ)⟩ i - (fun _ : Fin 2 => (1/2 : ℝ)) i) ≤ 1e-10) := by
  have hX : SO3.normSq ⟨0, 0, 0, 1⟩ = 1 := by
    show (0:ℝ) * 0 + 0 * 0 + 0 * 0 + 1 * 1 = 1
    norm_num
  have hXr : SE3.identity.rot.normSq = 1 := hX
  have hv : V3.norm ⟨1, 0, 0⟩ = 1 := by
    simp only [V3.norm]
    rw [show V3.normSq ⟨1, 0, 0⟩ = 1 by norm_num [V3.normSq], Real.sqrt_one]
  have h6 : norm6 (mk6 ⟨1, 0, 0⟩ ⟨0, 0, 0⟩) = 1 := by
    simp only [norm6]
    rw [show normSq6 (mk6 ⟨1, 0, 0⟩ ⟨0, 0, 0⟩) = 1 by
      show (1:ℝ) * 1 + 0 * 0 + 0 * 0 + 0 * 0 + 0 * 0 + 0 * 0 = 1
      norm_num, Real.sqrt_one]
  have hN : normN (fun _ : Fin 2 => (1/2 : ℝ)) = Real.sqrt (1/2) := by
    simp only [normN]
    rw [show normSqN (fun _ : Fin 2 => (1/2 : ℝ)) = 1/2 by
      simp [normSqN, Fin.sum_univ_two]]
  refine ⟨c6_retraction_roundtrip.1 ⟨0, 0, 0, 1⟩ ⟨1, 0, 0⟩ hX
      (by rw [hv]; norm_num) (by rw [hv]),
    c6_retraction_roundtrip.2.1 SE3.identity _ hXr
      (by rw [h6]; norm_num) (by rw [h6]),
    c6_retraction_roundtrip.2.2 2 ⟨fun _ : Fin 2 => (3:ℝ)⟩ _ ?_ ?_⟩
  · rw [hN, show (1e-8 : ℝ) = Real.sqrt 1e-16 by
      rw [show (1e-16 : ℝ) = (1e-8) ^ 2 by norm_num, Real.sqrt_sq (by norm_num)]]
    exact Real.sqrt_le_sqrt (by norm_num)
  · rw [hN]
    calc Real.sqrt (1/2) ≤ Real.sqrt 1 := Real.sqrt_le_sqrt (by norm_num)
      _ = 1 := Real.sqrt_one
